import Mathlib

/-!
Element-wise (Schur) product of two sparse matrices: `spglue_schur`.

A shallow embedding of `include/armadillo_bits/spglue_schur_meat.hpp`.

* `uword` is `Nat`: the kernel only adds and multiplies indices that are bounded
  by `n_rows * n_cols`, which the container keeps representable.
* `eT` is any type with a multiplication, a zero and decidable equality.
* The backing arrays of a matrix are lists. A read past the end of a list yields `0`; a
  valid matrix has the slot past its last entry, which is all the end sentinel reads. A
  write past the end is dropped; the bounds theorem on the loop shows that no such write
  is performed on valid inputs.
* A call `f(out, ...)` on a destination passed by reference becomes a function that
  returns how the call ended together with the final content of `out`.
* The container `SpMat`, the read views with their iterators, the size check and the
  estimator `max_n_nonzero_schur` live in other files of the library; they are modelled
  from the specification, and the estimator is a parameter of the kernel.
-/

namespace arma

/-! ## Data model -/

/-- Modelled from the spec: the sparse matrix in compressed-sparse-column form (`SpMat<eT>`,
declared outside this file): the shape, the number of stored entries and the three backing
arrays. -/
structure SpMat (eT : Type) where
  n_rows : Nat
  n_cols : Nat
  n_nonzero : Nat
  values : List eT
  row_indices : List Nat
  col_ptrs : List Nat
deriving DecidableEq

/-- How a call ended: normally, with the size-mismatch error raised for the named
operation, or not at all (the loop was still running when its iteration budget ran out). -/
inductive Status where
  | ok
  | size_mismatch (what : String)
  | no_termination
deriving DecidableEq

/-- Modelled from the spec: the forward iterator of a structural read view
(`SpProxy<T>::const_iterator_type`, not part of this file). It is the current column
together with the current offset into `values` and `row_indices`. -/
structure const_iterator where
  internal_col : Nat
  internal_pos : Nat
deriving DecidableEq

/-- Modelled from the spec: the column scan by which an iterator finds the column of its
offset: starting from `col`, skip every column whose end offset `col_ptrs[col + 1]` is not
beyond `pos`; `fuel` is the number of columns that remain, so the scan stops at column
`n_cols` at the latest. -/
def scan_col (col_ptrs : List Nat) (pos : Nat) : Nat → Nat → Nat
  | 0, col => col
  | fuel + 1, col =>
    if col_ptrs.getD (col + 1) 0 ≤ pos then scan_col col_ptrs pos fuel (col + 1) else col

variable {eT : Type}

/-- Modelled from the spec: `begin()` of a read view, the iterator on the first stored entry
in column-major order (the end sentinel when nothing is stored). -/
def SpMat.begin (M : SpMat eT) : const_iterator :=
  if M.n_nonzero = 0 then ⟨M.n_cols, 0⟩
  else ⟨scan_col M.col_ptrs 0 M.n_cols 0, 0⟩

/-- Modelled from the spec: `end()` of a read view, the end sentinel: column `n_cols`,
offset `n_nonzero`. -/
def SpMat.«end» (M : SpMat eT) : const_iterator :=
  ⟨M.n_cols, M.n_nonzero⟩

/-- Modelled from the spec: `it.row()`, the row index stored at the current offset. -/
def const_iterator.row (it : const_iterator) (M : SpMat eT) : Nat :=
  M.row_indices.getD it.internal_pos 0

/-- Modelled from the spec: `it.col()`, the current column. -/
def const_iterator.col (it : const_iterator) : Nat :=
  it.internal_col

/-- Modelled from the spec: `*it`, the value stored at the current offset. -/
def const_iterator.deref [Zero eT] (it : const_iterator) (M : SpMat eT) : eT :=
  M.values.getD it.internal_pos 0

/-- Modelled from the spec: `++it`, single-step advancement: move to the next offset, and
to the column that holds it (the end sentinel after the last stored entry). -/
def const_iterator.next (it : const_iterator) (M : SpMat eT) : const_iterator :=
  let pos := it.internal_pos + 1
  if pos = M.n_nonzero then ⟨M.n_cols, pos⟩
  else ⟨scan_col M.col_ptrs pos (M.n_cols - it.internal_col) it.internal_col, pos⟩

/-- Modelled from the spec: `SpMat::reserve(rows, cols, n)`: set the shape, acquire storage
for `n` entries plus the trailing slot, and zero-fill the `n_cols + 1` column pointers.
Freshly acquired slots are unspecified; here they hold whatever the previous storage of
the destination held at that offset (`0` where it held nothing). -/
def SpMat.reserve [Zero eT] (out : SpMat eT) (in_rows in_cols new_n_nonzero : Nat) : SpMat eT :=
  { n_rows := in_rows
    n_cols := in_cols
    n_nonzero := new_n_nonzero
    values := (List.range new_n_nonzero).map (fun i => out.values.getD i 0) ++ [0]
    row_indices := (List.range new_n_nonzero).map (fun i => out.row_indices.getD i 0) ++ [0]
    col_ptrs := List.replicate (in_cols + 1) 0 }

/-- Modelled from the spec: `SpMat::zeros(rows, cols)`: the all-zero matrix of the given
shape, with no stored entry. -/
def SpMat.zeros [Zero eT] (_out : SpMat eT) (in_rows in_cols : Nat) : SpMat eT :=
  { n_rows := in_rows
    n_cols := in_cols
    n_nonzero := 0
    values := [0]
    row_indices := [0]
    col_ptrs := List.replicate (in_cols + 1) 0 }

/-- Modelled from the spec: `SpMat::mem_resize(n)`: reallocate `values` and `row_indices`
to exactly `n` entries plus the trailing zero slot, copying the entries that are kept. -/
def SpMat.mem_resize [Zero eT] (out : SpMat eT) (new_n_nonzero : Nat) : SpMat eT :=
  { out with
    n_nonzero := new_n_nonzero
    values := (List.range new_n_nonzero).map (fun i => out.values.getD i 0) ++ [0]
    row_indices := (List.range new_n_nonzero).map (fun i => out.row_indices.getD i 0) ++ [0] }

/-- Modelled from the spec: `SpMat::steal_mem(tmp)`: the destination takes over the shape
and the storage of `tmp`. -/
def SpMat.steal_mem (_out tmp : SpMat eT) : SpMat eT :=
  tmp

/-- Modelled from the spec: a default-constructed `SpMat<eT>`, the empty `0 x 0` matrix. -/
def SpMat.empty [Zero eT] : SpMat eT :=
  { n_rows := 0
    n_cols := 0
    n_nonzero := 0
    values := [0]
    row_indices := [0]
    col_ptrs := [0] }

/-- Modelled from the spec: `arma_debug_assert_same_size`, the size-mismatch reporter: it
raises the error for operation `x` when the two shapes differ. -/
def arma_debug_assert_same_size (A_n_rows A_n_cols B_n_rows B_n_cols : Nat) (x : String) :
    Status :=
  if A_n_rows ≠ B_n_rows ∨ A_n_cols ≠ B_n_cols then Status.size_mismatch x else Status.ok

/-! ## The merge loop of `apply_noalias` (lines 70-119) -/

/-- Lines 85 and 90: the linear index `row + col * n_rows` of a position. -/
def linear_index (n_rows row col : Nat) : Nat :=
  row + col * n_rows

/-- Local state of the `while` loop: the two input iterators, the running output count, and
the destination under construction (its `col_ptrs` hold per-column tallies). -/
structure merge_state (eT : Type) where
  x_it : const_iterator
  y_it : const_iterator
  count : Nat
  out : SpMat eT
deriving DecidableEq

/-- Lines 70-78: both iterators at `begin()`, `count = 0`; `out1` is the destination as
`reserve` left it. -/
def merge_init (pa pb out1 : SpMat eT) : merge_state eT :=
  { x_it := pa.begin, y_it := pb.begin, count := 0, out := out1 }

/-- Loop condition, line 80: `(x_it != x_end) || (y_it != y_end)`. -/
def merge_cond (pa pb : SpMat eT) (s : merge_state eT) : Bool :=
  decide (s.x_it ≠ pa.«end») || decide (s.y_it ≠ pb.«end»)

/-- Loop body, lines 82-118. -/
def merge_body [Mul eT] [Zero eT] [DecidableEq eT] (pa pb : SpMat eT) (n_rows : Nat)
    (s : merge_state eT) : merge_state eT :=
  let x_it_row := s.x_it.row pa
  let x_it_col := s.x_it.col
  let x_index := x_it_row + x_it_col * n_rows
  let y_it_row := s.y_it.row pb
  let y_it_col := s.y_it.col
  let y_index := y_it_row + y_it_col * n_rows
  if x_index = y_index then
    let out_val := s.x_it.deref pa * s.y_it.deref pb
    if out_val ≠ 0 then
      { x_it := s.x_it.next pa
        y_it := s.y_it.next pb
        count := s.count + 1
        out :=
          { s.out with
            values := s.out.values.set s.count out_val
            row_indices := s.out.row_indices.set s.count x_it_row
            col_ptrs :=
              s.out.col_ptrs.set (x_it_col + 1) (s.out.col_ptrs.getD (x_it_col + 1) 0 + 1) } }
    else
      { s with x_it := s.x_it.next pa, y_it := s.y_it.next pb }
  else if x_index < y_index then
    { s with x_it := s.x_it.next pa }
  else
    { s with y_it := s.y_it.next pb }

/-- The `while` loop of lines 80-119 with an iteration budget: `none` when the condition
still holds after `fuel` iterations. -/
def merge_loop [Mul eT] [Zero eT] [DecidableEq eT] (pa pb : SpMat eT) (n_rows : Nat) :
    Nat → merge_state eT → Option (merge_state eT)
  | 0, s => if merge_cond pa pb s then none else some s
  | fuel + 1, s =>
    if merge_cond pa pb s then merge_loop pa pb n_rows fuel (merge_body pa pb n_rows s)
    else some s

/-- State of the loop after at most `k` iterations (it stays put once the condition fails). -/
def merge_after [Mul eT] [Zero eT] [DecidableEq eT] (pa pb : SpMat eT) (n_rows : Nat) :
    Nat → merge_state eT → merge_state eT
  | 0, s => s
  | k + 1, s =>
    if merge_cond pa pb s then merge_after pa pb n_rows k (merge_body pa pb n_rows s) else s

/-- Which input an iterator access concerns. -/
inductive side where
  | x
  | y
deriving DecidableEq

/-- One access to an input iterator: `it.row()`, `it.col()`, `*it` or `++it`. -/
inductive access where
  | row (s : side)
  | col (s : side)
  | deref (s : side)
  | incr (s : side)
deriving DecidableEq

/-- Iterator accesses of one execution of the loop body, in program order (lines 82-118). -/
def merge_body_accesses (pa pb : SpMat eT) (n_rows : Nat) (s : merge_state eT) : List access :=
  let x_index := s.x_it.row pa + s.x_it.col * n_rows
  let y_index := s.y_it.row pb + s.y_it.col * n_rows
  [access.row side.x, access.col side.x, access.row side.y, access.col side.y] ++
  (if x_index = y_index then
    [access.deref side.x, access.deref side.y, access.incr side.x, access.incr side.y]
  else if x_index < y_index then [access.incr side.x]
  else [access.incr side.y])

/-! ## Finalisation (lines 121-144) -/

/-- Lines 126-129: `for(c = 1; c <= out_n_cols; ++c) col_ptrs[c] += col_ptrs[c - 1]`. -/
def fix_col_ptrs (out_n_cols : Nat) (col_ptrs : List Nat) : List Nat :=
  (List.range' 1 out_n_cols).foldl
    (fun cp c => cp.set c (cp.getD c 0 + cp.getD (c - 1) 0)) col_ptrs

/-- Lines 131-144: trim the storage reserved for `max_n_nonzero` entries to `count`. -/
def rightsize [Zero eT] (max_n_nonzero count : Nat) (out : SpMat eT) : SpMat eT :=
  if count < max_n_nonzero then
    if count ≤ max_n_nonzero / 2 then
      out.mem_resize count
    else
      { out with
        n_nonzero := count
        values := out.values.set count 0
        row_indices := out.row_indices.set count 0 }
  else out

/-- Lines 140-142: quick resize without reallocating memory and copying data: record the
new count and zero the slot past the last entry. -/
def SpMat.quick_resize [Zero eT] (out : SpMat eT) (count : Nat) : SpMat eT :=
  { out with
    n_nonzero := count
    values := out.values.set count 0
    row_indices := out.row_indices.set count 0 }

/-- Lines 121-129 on the state the loop ends in: the destination with its per-column
tallies turned into cumulative offsets. -/
def merge_state.fix_out (s : merge_state eT) : SpMat eT :=
  { s.out with col_ptrs := fix_col_ptrs s.out.n_cols s.out.col_ptrs }

end arma

namespace arma.spglue_elem_helper

variable {eT : Type}

/-- Modelled from the spec: the loop of the estimator, a counting merge-walk of two
position streams: the number of positions met in both. -/
def count_loop (pa pb : SpMat eT) (n_rows : Nat) :
    Nat → const_iterator → const_iterator → Nat → Nat
  | 0, _, _, count => count
  | fuel + 1, x_it, y_it, count =>
    if x_it ≠ pa.«end» ∨ y_it ≠ pb.«end» then
      let x_index := x_it.row pa + x_it.col * n_rows
      let y_index := y_it.row pb + y_it.col * n_rows
      if x_index = y_index then count_loop pa pb n_rows fuel (x_it.next pa) (y_it.next pb) (count + 1)
      else if x_index < y_index then count_loop pa pb n_rows fuel (x_it.next pa) y_it count
      else count_loop pa pb n_rows fuel x_it (y_it.next pb) count
    else count

/-- Modelled from the spec: the nonzero-bound estimator `max_n_nonzero_schur` (not part of
this file): a counting merge-walk of the two position streams, like the merge of
`apply_noalias` but counting the intersection instead of computing products. -/
def max_n_nonzero_schur (pa pb : SpMat eT) : Nat :=
  count_loop pa pb pa.n_rows (pa.n_nonzero + pb.n_nonzero) pa.begin pb.begin 0

end arma.spglue_elem_helper

namespace arma.spglue_schur

variable {eT : Type}

/-- The kernel `spglue_schur::apply_noalias(out, pa, pb)`, lines 56-150. The estimator called
on line 64 is the parameter `max_n_nonzero_schur`. -/
def apply_noalias [Mul eT] [Zero eT] [DecidableEq eT]
    (max_n_nonzero_schur : SpMat eT → SpMat eT → Nat) (out pa pb : SpMat eT) :
    Status × SpMat eT :=
  match arma_debug_assert_same_size pa.n_rows pa.n_cols pb.n_rows pb.n_cols
      "element-wise multiplication" with
  | Status.ok =>
    if pa.n_nonzero ≠ 0 ∧ pb.n_nonzero ≠ 0 then
      let max_n_nonzero := max_n_nonzero_schur pa pb
      let out1 := out.reserve pa.n_rows pa.n_cols max_n_nonzero
      let n_rows := pa.n_rows
      match merge_loop pa pb n_rows (pa.n_nonzero + pb.n_nonzero) (merge_init pa pb out1) with
      | none => (Status.no_termination, out1)
      | some s =>
        let out_n_cols := s.out.n_cols
        let out2 := { s.out with col_ptrs := fix_col_ptrs out_n_cols s.out.col_ptrs }
        (Status.ok, rightsize max_n_nonzero s.count out2)
    else
      (Status.ok, out.zeros pa.n_rows pa.n_cols)
  | e => (e, out)

/-- An operand of the expression `A % B`, seen from the destination: either the destination
object itself or another matrix. -/
inductive operand (eT : Type) where
  | dest
  | mat (M : SpMat eT)

/-- The matrix an operand denotes when the destination currently holds `out`. -/
def operand.get (out : SpMat eT) : operand eT → SpMat eT
  | operand.dest => out
  | operand.mat M => M

/-- Modelled from the spec: `SpProxy::is_alias(out)`, whether the operand's storage is the
destination's storage. -/
def operand.is_alias : operand eT → Bool
  | operand.dest => true
  | operand.mat _ => false

/-- The entry point `spglue_schur::apply(out, X)`, lines 26-48, with `X.A = a`, `X.B = b`. -/
def apply [Mul eT] [Zero eT] [DecidableEq eT]
    (max_n_nonzero_schur : SpMat eT → SpMat eT → Nat) (out : SpMat eT) (a b : operand eT) :
    Status × SpMat eT :=
  let pa := a.get out
  let pb := b.get out
  let is_alias := a.is_alias || b.is_alias
  if is_alias = false then
    apply_noalias max_n_nonzero_schur out pa pb
  else
    match apply_noalias max_n_nonzero_schur SpMat.empty pa pb with
    | (Status.ok, tmp) => (Status.ok, out.steal_mem tmp)
    | (e, _) => (e, out)

end arma.spglue_schur

namespace arma

variable {eT : Type}

/-! ## Reading a matrix, validity, and the counts the contract speaks of -/

/-- Modelled from the spec: where position `(r, c)` is stored, if it is: the first offset
in the range `col_ptrs[c] .. col_ptrs[c + 1] - 1` of column `c` whose row index is `r`. -/
def SpMat.find_pos (M : SpMat eT) (r c : Nat) : Option Nat :=
  (List.range' (M.col_ptrs.getD c 0) (M.col_ptrs.getD (c + 1) 0 - M.col_ptrs.getD c 0)).find?
    (fun p => decide (M.row_indices.getD p 0 = r))

/-- Whether position `(r, c)` is stored. -/
def SpMat.stored (M : SpMat eT) (r c : Nat) : Bool :=
  (M.find_pos r c).isSome

/-- Modelled from the spec: the element read `M[r, c]`: the stored value, and `0` at a
position that is not stored. -/
def SpMat.get_value [Zero eT] (M : SpMat eT) (r c : Nat) : eT :=
  match M.find_pos r c with
  | some p => M.values.getD p 0
  | none => 0

/-- Valid CSC structure: `col_ptrs` has `n_cols + 1` entries, starts at `0`, is
non-decreasing and ends at `n_nonzero`; both entry arrays have the slot past the last
entry (the container keeps it, and lines 141-142 write it); every stored row index is
below `n_rows`; and inside each column the row indices are strictly ascending (so no
position is stored twice). Stored values are unconstrained: explicit zeros are allowed. -/
def SpMat.valid (M : SpMat eT) : Prop :=
  M.col_ptrs.length = M.n_cols + 1 ∧
  M.col_ptrs.getD 0 0 = 0 ∧
  (∀ c < M.n_cols, M.col_ptrs.getD c 0 ≤ M.col_ptrs.getD (c + 1) 0) ∧
  M.col_ptrs.getD M.n_cols 0 = M.n_nonzero ∧
  M.n_nonzero < M.values.length ∧
  M.n_nonzero < M.row_indices.length ∧
  (∀ p < M.n_nonzero, M.row_indices.getD p 0 < M.n_rows) ∧
  (∀ c < M.n_cols, ∀ p < M.n_nonzero, M.col_ptrs.getD c 0 ≤ p →
    p + 1 < M.col_ptrs.getD (c + 1) 0 →
    M.row_indices.getD p 0 < M.row_indices.getD (p + 1) 0)

instance (M : SpMat eT) : Decidable M.valid := by
  unfold SpMat.valid; infer_instance

/-- All positions `(r, c)` of the shape of `M`. -/
def SpMat.positions (M : SpMat eT) : List (Nat × Nat) :=
  List.product (List.range M.n_rows) (List.range M.n_cols)

/-- Number of positions stored in both `A` and `B`. -/
def common_positions (A B : SpMat eT) : Nat :=
  (A.positions.filter (fun rc => A.stored rc.1 rc.2 && B.stored rc.1 rc.2)).length

/-- Number of positions stored in both `A` and `B` whose two stored values have a nonzero
product. -/
def schur_nnz [Mul eT] [Zero eT] [DecidableEq eT] (A B : SpMat eT) : Nat :=
  (A.positions.filter (fun rc => A.stored rc.1 rc.2 && B.stored rc.1 rc.2 &&
    decide (A.get_value rc.1 rc.2 * B.get_value rc.1 rc.2 ≠ 0))).length

/-- Rows of column `c`, in ascending order, at which both `A` and `B` store an entry and the
product of the two stored values is not zero. -/
def schur_col_rows [Mul eT] [Zero eT] [DecidableEq eT] (A B : SpMat eT) (c : Nat) : List Nat :=
  (List.range A.n_rows).filter (fun r => A.stored r c && B.stored r c &&
    decide (A.get_value r c * B.get_value r c ≠ 0))

/-! ## Vocabulary of the proofs -/

/-- Offset `p` lies in the storage range of column `c`. -/
def SpMat.in_col (M : SpMat eT) (c p : Nat) : Prop :=
  c < M.n_cols ∧ M.col_ptrs.getD c 0 ≤ p ∧ p < M.col_ptrs.getD (c + 1) 0

/-- Column of the entry stored at offset `p`, found by the column scan from column `0`. -/
def SpMat.col_of (M : SpMat eT) (p : Nat) : Nat :=
  scan_col M.col_ptrs p M.n_cols 0

/-- The iterator that stands on offset `p` (the end sentinel for `p = n_nonzero`). -/
def SpMat.iter_at (M : SpMat eT) (p : Nat) : const_iterator :=
  ⟨if p < M.n_nonzero then M.col_of p else M.n_cols, p⟩

/-- Linear index `row + col * n_rows` that the loop computes for the iterator on offset `p`. -/
def SpMat.key (M : SpMat eT) (p : Nat) : Nat :=
  M.row_indices.getD p 0 + (M.iter_at p).internal_col * M.n_rows

/-- An output entry: row, column, value. -/
abbrev entry (eT : Type) := Nat × Nat × eT

/-- What the entry of `A` at offset `i` contributes to the product: its position with the
product of the two stored values, when `B` stores the position and the product is not `0`. -/
def emit [Mul eT] [Zero eT] [DecidableEq eT] (A B : SpMat eT) (i : Nat) : Option (entry eT) :=
  match B.find_pos (A.row_indices.getD i 0) (A.col_of i) with
  | some j =>
    let v := A.values.getD i 0 * B.values.getD j 0
    if v ≠ 0 then some (A.row_indices.getD i 0, A.col_of i, v) else none
  | none => none

/-- Entries contributed by the first `i` stored entries of `A`, in storage order. -/
def emitted [Mul eT] [Zero eT] [DecidableEq eT] (A B : SpMat eT) (i : Nat) : List (entry eT) :=
  (List.range i).filterMap (emit A B)

/-- Invariant of the merge loop between iterations, for valid same-shaped inputs `A` and `B`
and storage reserved for `max_n_nonzero` entries: the iterators stand on offsets `i` and
`j`, every entry already passed on one side lies before the current entry of the other
side, and the destination holds exactly the entries contributed so far. -/
structure merge_inv [Mul eT] [Zero eT] [DecidableEq eT] (A B : SpMat eT) (max_n_nonzero : Nat)
    (i j : Nat) (s : merge_state eT) : Prop where
  i_le : i ≤ A.n_nonzero
  j_le : j ≤ B.n_nonzero
  x_eq : s.x_it = A.iter_at i
  y_eq : s.y_it = B.iter_at j
  x_behind : ∀ i' < i, A.key i' < B.key j
  y_behind : ∀ j' < j, B.key j' < A.key i
  count_eq : s.count = (emitted A B i).length
  entries : ∀ p e, (emitted A B i)[p]? = some e →
    s.out.values.getD p 0 = e.2.2 ∧ s.out.row_indices.getD p 0 = e.1
  tallies : ∀ k, s.out.col_ptrs.getD k 0 = (emitted A B i).countP (fun e => e.2.1 + 1 = k)
  values_length : s.out.values.length = max_n_nonzero + 1
  row_indices_length : s.out.row_indices.length = max_n_nonzero + 1
  col_ptrs_length : s.out.col_ptrs.length = A.n_cols + 1
  n_rows_eq : s.out.n_rows = A.n_rows
  n_cols_eq : s.out.n_cols = A.n_cols
  n_nonzero_eq : s.out.n_nonzero = max_n_nonzero

/-- The part of the loop invariant that concerns the iterators only: they stand on offsets
`i` and `j`, and every entry already passed on one side lies before the current entry of
the other side. -/
structure iters_at (A B : SpMat eT) (i j : Nat) (s : merge_state eT) : Prop where
  i_le : i ≤ A.n_nonzero
  j_le : j ≤ B.n_nonzero
  x_eq : s.x_it = A.iter_at i
  y_eq : s.y_it = B.iter_at j
  x_behind : ∀ i' < i, A.key i' < B.key j
  y_behind : ∀ j' < j, B.key j' < A.key i


/-- Offsets below `i` of the entries of `A` whose position `B` stores too. -/
def matched (A B : SpMat eT) (i : Nat) : List Nat :=
  (List.range i).filter (fun a => B.stored (A.row_indices.getD a 0) (A.col_of a))

/-- A list of entries in strictly ascending linear-index order, all inside the shape. -/
structure sorted_entries (n_rows n_cols : Nat) (E : List (entry eT)) : Prop where
  ascending : E.Pairwise (fun e e' => e.1 + e.2.1 * n_rows < e'.1 + e'.2.1 * n_rows)
  in_shape : ∀ e ∈ E, e.1 < n_rows ∧ e.2.1 < n_cols

/-- Matrix `R` of shape `n_rows x n_cols` stores exactly the entries `E`, in that order:
entry `p` of `E` is at offset `p`, and `col_ptrs[k]` is the number of entries in columns
before `k`. -/
structure holds_entries [Zero eT] (R : SpMat eT) (n_rows n_cols : Nat) (E : List (entry eT)) :
    Prop where
  n_rows_eq : R.n_rows = n_rows
  n_cols_eq : R.n_cols = n_cols
  n_nonzero_eq : R.n_nonzero = E.length
  entries : ∀ p e, E[p]? = some e →
    R.values.getD p 0 = e.2.2 ∧ R.row_indices.getD p 0 = e.1
  col_ptrs_length : R.col_ptrs.length = n_cols + 1
  col_ptrs_eq : ∀ k ≤ n_cols, R.col_ptrs.getD k 0 = E.countP (fun e => decide (e.2.1 < k))
  values_length : E.length < R.values.length
  row_indices_length : E.length < R.row_indices.length

end arma

namespace arma

/-! ## Concrete matrices -/

/-- First operand of the concrete scenario: shape `3 x 3`, entries `(0,0)=2`, `(1,0)=3`,
`(2,2)=5`. -/
def exA : SpMat Int :=
  { n_rows := 3, n_cols := 3, n_nonzero := 3
    values := [2, 3, 5, 0], row_indices := [0, 1, 2, 0], col_ptrs := [0, 2, 2, 3] }

/-- Second operand of the concrete scenario: shape `3 x 3`, entries `(0,0)=4`, `(2,1)=7`. -/
def exB : SpMat Int :=
  { n_rows := 3, n_cols := 3, n_nonzero := 2
    values := [4, 7, 0], row_indices := [0, 2, 0], col_ptrs := [0, 1, 2, 2] }

/-- Matrix of shape `3 x 3` without stored entries. -/
def exEmpty : SpMat Int :=
  { n_rows := 3, n_cols := 3, n_nonzero := 0
    values := [0], row_indices := [0], col_ptrs := [0, 0, 0, 0] }

/-- Matrix of shape `2 x 3` with the single entry `(1,2)=9`. -/
def exC : SpMat Int :=
  { n_rows := 2, n_cols := 3, n_nonzero := 1
    values := [9, 0], row_indices := [1, 0], col_ptrs := [0, 0, 0, 1] }

/-- Matrix of shape `2 x 2` over the integers modulo 4 with `(0,0)=2`, `(1,1)=3`, and an
explicit zero stored at `(1,0)`. -/
def exZ : SpMat (Fin 4) :=
  { n_rows := 2, n_cols := 2, n_nonzero := 3
    values := [2, 0, 3, 0], row_indices := [0, 1, 1, 0], col_ptrs := [0, 2, 3] }

/-- Some prior content of a destination: shape `1 x 1`, seven slots filled with `7` and
row `5`. It is not a valid matrix. -/
def exStale : SpMat Int :=
  { n_rows := 1, n_cols := 1, n_nonzero := 6
    values := [7, 7, 7, 7, 7, 7, 7], row_indices := [5, 5, 5, 5, 5, 5, 5], col_ptrs := [3, 4] }

/-- Element type with four values: zero, one, infinity and not-a-number. -/
inductive xval where
  | zero
  | one
  | inf
  | nan
deriving DecidableEq

/-- Multiplication of `xval`, as floating-point numbers multiply: not-a-number absorbs, and
the product of zero and infinity is not a number. -/
def xval.mul : xval → xval → xval
  | xval.nan, _ => xval.nan
  | _, xval.nan => xval.nan
  | xval.zero, xval.inf => xval.nan
  | xval.inf, xval.zero => xval.nan
  | xval.zero, _ => xval.zero
  | _, xval.zero => xval.zero
  | xval.inf, _ => xval.inf
  | _, xval.inf => xval.inf
  | xval.one, xval.one => xval.one

instance : Mul xval := ⟨xval.mul⟩

instance : Zero xval := ⟨xval.zero⟩

end arma

namespace arma

variable {eT : Type}

/-! ## Lists as arrays -/

theorem getD_set_self {α : Type} (l : List α) (i : Nat) (v d : α) (h : i < l.length) :
    (l.set i v).getD i d = v := by
  simp [List.getD_eq_getElem?_getD, List.getElem?_set, h]

theorem getD_set_ne {α : Type} (l : List α) (i j : Nat) (v d : α) (h : i ≠ j) :
    (l.set i v).getD j d = l.getD j d := by
  simp [List.getD_eq_getElem?_getD, List.getElem?_set, h]

theorem getD_replicate_zero (n k : Nat) : (List.replicate n 0).getD k 0 = 0 := by
  simp [List.getD_eq_getElem?_getD, List.getElem?_replicate]
  split <;> simp

theorem getD_map_range_append {α : Type} (f : Nat → α) (n p : Nat) (z d : α) (h : p < n) :
    ((List.range n).map f ++ [z]).getD p d = f p := by
  simp [List.getD_eq_getElem?_getD, List.getElem?_append, h, List.getElem?_range]

theorem getD_map_range_append_last {α : Type} (f : Nat → α) (n : Nat) (z d : α) :
    ((List.range n).map f ++ [z]).getD n d = z := by
  simp [List.getD_eq_getElem?_getD, List.getElem?_append]

/-! ## Linear index -/

theorem linear_index_lt_of_col_lt (n r1 c1 r2 c2 : Nat) (hr : r1 < n) (hc : c1 < c2) :
    r1 + c1 * n < r2 + c2 * n := by
  have h : (c1 + 1) * n ≤ c2 * n := Nat.mul_le_mul_right n hc
  have h2 : (c1 + 1) * n = c1 * n + n := by ring
  omega

/-! ## Valid matrices -/

theorem SpMat.valid.col_ptrs_mono {M : SpMat eT} (h : M.valid) (c c' : Nat) (hc : c ≤ c')
    (hc' : c' ≤ M.n_cols) : M.col_ptrs.getD c 0 ≤ M.col_ptrs.getD c' 0 := by
  induction c' with
  | zero => have : c = 0 := by omega
            subst this; exact le_refl _
  | succ k ih =>
    rcases Nat.eq_or_lt_of_le hc with h1 | h1
    · subst h1; exact le_refl _
    · have := ih (by omega) (by omega)
      have h2 := h.2.2.1 k (by omega)
      omega

theorem SpMat.valid.col_ptrs_le {M : SpMat eT} (h : M.valid) (c : Nat) (hc : c ≤ M.n_cols) :
    M.col_ptrs.getD c 0 ≤ M.n_nonzero := by
  have := h.col_ptrs_mono c M.n_cols hc (le_refl _)
  rw [h.2.2.2.1] at this; exact this

theorem SpMat.valid.in_col_lt {M : SpMat eT} (h : M.valid) {c p : Nat} (hp : M.in_col c p) :
    p < M.n_nonzero := by
  have := h.col_ptrs_le (c + 1) hp.1
  have := hp.2.2
  omega

theorem SpMat.valid.in_col_unique {M : SpMat eT} (h : M.valid) {c c' p : Nat}
    (hc : M.in_col c p) (hc' : M.in_col c' p) : c = c' := by
  rcases Nat.lt_trichotomy c c' with h1 | h1 | h1
  · have := h.col_ptrs_mono (c + 1) c' h1 (le_of_lt hc'.1)
    have := hc.2.2; have := hc'.2.1; omega
  · exact h1
  · have := h.col_ptrs_mono (c' + 1) c h1 (le_of_lt hc.1)
    have := hc'.2.2; have := hc.2.1; omega

theorem SpMat.valid.in_col_mono {M : SpMat eT} (h : M.valid) {c c' p q : Nat}
    (hc : M.in_col c p) (hc' : M.in_col c' q) (hpq : p ≤ q) : c ≤ c' := by
  by_contra hlt
  have := h.col_ptrs_mono (c' + 1) c (by omega) (le_of_lt hc.1)
  have := hc'.2.2; have := hc.2.1; omega

theorem SpMat.valid.scan_col_spec {M : SpMat eT} (h : M.valid) (p : Nat) (hp : p < M.n_nonzero) :
    ∀ (fuel col : Nat), col + fuel = M.n_cols → M.col_ptrs.getD col 0 ≤ p →
      M.in_col (scan_col M.col_ptrs p fuel col) p := by
  intro fuel
  induction fuel with
  | zero =>
    intro col hcol hle
    have : col = M.n_cols := by omega
    subst this
    rw [h.2.2.2.1] at hle; omega
  | succ k ih =>
    intro col hcol hle
    simp only [scan_col]
    split
    · exact ih (col + 1) (by omega) (by assumption)
    · exact ⟨by omega, hle, by omega⟩

theorem SpMat.valid.in_col_col_of {M : SpMat eT} (h : M.valid) (p : Nat) (hp : p < M.n_nonzero) :
    M.in_col (M.col_of p) p := by
  unfold SpMat.col_of
  exact h.scan_col_spec p hp M.n_cols 0 (by omega) (by rw [h.2.1]; omega)

theorem SpMat.valid.col_of_eq {M : SpMat eT} (h : M.valid) {c p : Nat} (hc : M.in_col c p) :
    M.col_of p = c :=
  h.in_col_unique (h.in_col_col_of p (h.in_col_lt hc)) hc

theorem SpMat.valid.row_lt {M : SpMat eT} (h : M.valid) (p : Nat) (hp : p < M.n_nonzero) :
    M.row_indices.getD p 0 < M.n_rows :=
  h.2.2.2.2.2.2.1 p hp

theorem SpMat.valid.rows_ascending {M : SpMat eT} (h : M.valid) {c p : Nat} (hp : M.in_col c p) :
    ∀ q, M.in_col c q → p < q → M.row_indices.getD p 0 < M.row_indices.getD q 0 := by
  intro q
  induction q with
  | zero => intro _ hlt; omega
  | succ k ih =>
    intro hq hlt
    have hstep : M.row_indices.getD k 0 < M.row_indices.getD (k + 1) 0 :=
      h.2.2.2.2.2.2.2 c hp.1 k (by have := h.in_col_lt hq; omega) (by have := hp.2.1; omega) hq.2.2
    rcases Nat.eq_or_lt_of_le (Nat.lt_succ_iff.mp hlt) with h1 | h1
    · subst h1; exact hstep
    · have := ih ⟨hp.1, by have := hp.2.1; omega, by have := hq.2.2; omega⟩ h1
      omega

theorem SpMat.valid.row_inj {M : SpMat eT} (h : M.valid) {c p q : Nat} (hp : M.in_col c p)
    (hq : M.in_col c q) (hr : M.row_indices.getD p 0 = M.row_indices.getD q 0) : p = q := by
  rcases Nat.lt_trichotomy p q with h1 | h1 | h1
  · have := h.rows_ascending hp q hq h1; omega
  · exact h1
  · have := h.rows_ascending hq p hp h1; omega

theorem SpMat.valid.find_pos_eq_some {M : SpMat eT} (h : M.valid) (r c p : Nat) :
    M.find_pos r c = some p ↔ M.in_col c p ∧ M.row_indices.getD p 0 = r := by
  unfold SpMat.find_pos
  constructor
  · intro hf
    have hmem := List.mem_of_find?_eq_some hf
    have hrow := List.find?_some hf
    rw [List.mem_range'_1] at hmem
    simp only [decide_eq_true_eq] at hrow
    refine ⟨⟨?_, hmem.1, by omega⟩, hrow⟩
    by_contra hc
    have : M.col_ptrs.getD (c + 1) 0 = 0 := List.getD_eq_default _ _ (by rw [h.1]; omega)
    omega
  · rintro ⟨hin, hrow⟩
    have hsome : ((List.range' (M.col_ptrs.getD c 0)
        (M.col_ptrs.getD (c + 1) 0 - M.col_ptrs.getD c 0)).find?
        (fun p => decide (M.row_indices.getD p 0 = r))).isSome = true := by
      rw [List.find?_isSome]
      refine ⟨p, ?_, by simpa using hrow⟩
      rw [List.mem_range'_1]
      have := hin.2.1; have := hin.2.2; omega
    obtain ⟨q, hq⟩ := Option.isSome_iff_exists.mp hsome
    have hmem := List.mem_of_find?_eq_some hq
    have hrowq := List.find?_some hq
    rw [List.mem_range'_1] at hmem
    simp only [decide_eq_true_eq] at hrowq
    have hqin : M.in_col c q := ⟨hin.1, hmem.1, by omega⟩
    have : q = p := h.row_inj hqin hin (by rw [hrowq, hrow])
    rw [hq, this]

theorem SpMat.valid.stored_iff {M : SpMat eT} (h : M.valid) (r c : Nat) :
    M.stored r c = true ↔ ∃ p, M.in_col c p ∧ M.row_indices.getD p 0 = r := by
  unfold SpMat.stored
  rw [Option.isSome_iff_exists]
  constructor
  · rintro ⟨p, hp⟩; exact ⟨p, (h.find_pos_eq_some r c p).mp hp⟩
  · rintro ⟨p, hp⟩; exact ⟨p, (h.find_pos_eq_some r c p).mpr hp⟩

theorem SpMat.valid.get_value_of_in_col [Zero eT] {M : SpMat eT} (h : M.valid) {c p : Nat}
    (hp : M.in_col c p) : M.get_value (M.row_indices.getD p 0) c = M.values.getD p 0 := by
  unfold SpMat.get_value
  rw [(h.find_pos_eq_some _ c p).mpr ⟨hp, rfl⟩]

theorem SpMat.valid.begin_eq {M : SpMat eT} (_h : M.valid) : M.begin = M.iter_at 0 := by
  unfold SpMat.begin SpMat.iter_at SpMat.col_of
  by_cases h0 : M.n_nonzero = 0
  · simp [h0]
  · have : 0 < M.n_nonzero := Nat.pos_of_ne_zero h0
    simp [h0, this]

theorem SpMat.valid.next_iter_at {M : SpMat eT} (h : M.valid) (p : Nat) (hp : p < M.n_nonzero) :
    (M.iter_at p).next M = M.iter_at (p + 1) := by
  unfold const_iterator.next SpMat.iter_at
  simp only [hp, if_true]
  by_cases hlast : p + 1 = M.n_nonzero
  · simp [hlast]
  · have hp1 : p + 1 < M.n_nonzero := by omega
    simp only [hlast, hp1, if_false, if_true]
    congr 1
    have hin := h.in_col_col_of p hp
    have hscan := h.scan_col_spec (p + 1) hp1 (M.n_cols - M.col_of p) (M.col_of p)
      (by have := hin.1; omega) (by have := hin.2.1; omega)
    exact (h.col_of_eq hscan).symm

theorem SpMat.iter_at_eq_end (M : SpMat eT) (p : Nat) : M.iter_at p = M.«end» ↔ p = M.n_nonzero := by
  unfold SpMat.iter_at SpMat.«end»
  constructor
  · intro h; injection h
  · intro h; subst h; simp

theorem SpMat.key_of_lt (M : SpMat eT) (p : Nat) (hp : p < M.n_nonzero) :
    M.key p = M.row_indices.getD p 0 + M.col_of p * M.n_rows := by
  simp [SpMat.key, SpMat.iter_at, hp]

theorem SpMat.key_end (M : SpMat eT) :
    M.key M.n_nonzero = M.row_indices.getD M.n_nonzero 0 + M.n_cols * M.n_rows := by
  simp [SpMat.key, SpMat.iter_at]

theorem SpMat.valid.key_lt_size {M : SpMat eT} (h : M.valid) (p : Nat) (hp : p < M.n_nonzero) :
    M.key p < M.n_cols * M.n_rows := by
  rw [M.key_of_lt p hp]
  have hin := h.in_col_col_of p hp
  have := linear_index_lt_of_col_lt M.n_rows _ (M.col_of p) 0 M.n_cols (h.row_lt p hp) hin.1
  omega

theorem SpMat.size_le_key_end (M : SpMat eT) : M.n_cols * M.n_rows ≤ M.key M.n_nonzero := by
  rw [M.key_end]; omega

theorem SpMat.valid.key_strict_mono {M : SpMat eT} (h : M.valid) (p q : Nat) (hpq : p < q)
    (hq : q ≤ M.n_nonzero) : M.key p < M.key q := by
  have hp : p < M.n_nonzero := by omega
  rcases Nat.eq_or_lt_of_le hq with h1 | h1
  · subst h1
    have := h.key_lt_size p hp
    have := M.size_le_key_end
    omega
  · rw [M.key_of_lt p hp, M.key_of_lt q h1]
    have hip := h.in_col_col_of p hp
    have hiq := h.in_col_col_of q h1
    have hle := h.in_col_mono hip hiq (le_of_lt hpq)
    rcases Nat.eq_or_lt_of_le hle with h2 | h2
    · rw [← h2] at hiq ⊢
      have := h.rows_ascending hip q hiq hpq
      omega
    · exact linear_index_lt_of_col_lt _ _ _ _ _ (h.row_lt p hp) h2

theorem SpMat.valid.key_le_of_le {M : SpMat eT} (h : M.valid) (p q : Nat) (hpq : p ≤ q)
    (hq : q ≤ M.n_nonzero) : M.key p ≤ M.key q := by
  rcases Nat.eq_or_lt_of_le hpq with h1 | h1
  · subst h1; exact le_refl _
  · exact le_of_lt (h.key_strict_mono p q h1 hq)

/-- Two live entries of same-shaped valid matrices have the same linear index exactly when
they have the same row and column. -/
theorem key_eq_iff {A B : SpMat eT} (hA : A.valid) (hB : B.valid) (hr : A.n_rows = B.n_rows)
    (i j : Nat) (hi : i < A.n_nonzero) (hj : j < B.n_nonzero) :
    A.key i = B.key j ↔
      A.row_indices.getD i 0 = B.row_indices.getD j 0 ∧ A.col_of i = B.col_of j := by
  rw [A.key_of_lt i hi, B.key_of_lt j hj, ← hr]
  have hri := hA.row_lt i hi
  have hrj := hB.row_lt j hj
  rw [← hr] at hrj
  constructor
  · intro hk
    rcases Nat.lt_trichotomy (A.col_of i) (B.col_of j) with h1 | h1 | h1
    · have := linear_index_lt_of_col_lt A.n_rows (A.row_indices.getD i 0) _
        (B.row_indices.getD j 0) _ hri h1
      omega
    · rw [h1] at hk; exact ⟨by omega, h1⟩
    · have := linear_index_lt_of_col_lt A.n_rows (B.row_indices.getD j 0) _
        (A.row_indices.getD i 0) _ hrj h1
      omega
  · rintro ⟨h1, h2⟩; rw [h1, h2]

/-! ## Contribution of one entry -/

theorem emitted_succ [Mul eT] [Zero eT] [DecidableEq eT] (A B : SpMat eT) (i : Nat) :
    emitted A B (i + 1) = emitted A B i ++ (emit A B i).toList := by
  unfold emitted
  rw [List.range_succ, List.filterMap_append]
  congr 1

theorem emit_of_key_eq [Mul eT] [Zero eT] [DecidableEq eT] {A B : SpMat eT} (hA : A.valid)
    (hB : B.valid) (hr : A.n_rows = B.n_rows) (i j : Nat) (hi : i < A.n_nonzero)
    (hj : j < B.n_nonzero) (hk : A.key i = B.key j) :
    emit A B i =
      if A.values.getD i 0 * B.values.getD j 0 ≠ 0 then
        some (A.row_indices.getD i 0, A.col_of i, A.values.getD i 0 * B.values.getD j 0)
      else none := by
  have hrc := (key_eq_iff hA hB hr i j hi hj).mp hk
  have hin : B.in_col (A.col_of i) j := by rw [hrc.2]; exact hB.in_col_col_of j hj
  have hf := (hB.find_pos_eq_some (A.row_indices.getD i 0) (A.col_of i) j).mpr ⟨hin, hrc.1.symm⟩
  unfold emit
  rw [hf]

theorem emit_of_key_ne [Mul eT] [Zero eT] [DecidableEq eT] {A B : SpMat eT} (hA : A.valid)
    (hB : B.valid) (hr : A.n_rows = B.n_rows) (i : Nat) (hi : i < A.n_nonzero)
    (hk : ∀ j < B.n_nonzero, A.key i ≠ B.key j) : emit A B i = none := by
  unfold emit
  cases hf : B.find_pos (A.row_indices.getD i 0) (A.col_of i) with
  | none => rfl
  | some j =>
    exfalso
    have hj := (hB.find_pos_eq_some _ _ j).mp hf
    have hjlt := hB.in_col_lt hj.1
    exact hk j hjlt ((key_eq_iff hA hB hr i j hi hjlt).mpr ⟨hj.2.symm, (hB.col_of_eq hj.1).symm⟩)

theorem emit_some_iff [Mul eT] [Zero eT] [DecidableEq eT] {A B : SpMat eT}
    (hB : B.valid) (i : Nat) (e : entry eT) :
    emit A B i = some e ↔
      ∃ j, B.in_col (A.col_of i) j ∧ B.row_indices.getD j 0 = A.row_indices.getD i 0 ∧
        A.values.getD i 0 * B.values.getD j 0 ≠ 0 ∧
        e = (A.row_indices.getD i 0, A.col_of i, A.values.getD i 0 * B.values.getD j 0) := by
  unfold emit
  constructor
  · intro h
    cases hf : B.find_pos (A.row_indices.getD i 0) (A.col_of i) with
    | none => rw [hf] at h; simp at h
    | some j =>
      rw [hf] at h
      have hj := (hB.find_pos_eq_some _ _ j).mp hf
      by_cases hv : A.values.getD i 0 * B.values.getD j 0 = 0
      · simp only [ne_eq, hv, not_true_eq_false, if_false, reduceCtorEq] at h
      · simp only [ne_eq, hv, not_false_eq_true, if_true, Option.some.injEq] at h
        exact ⟨j, hj.1, hj.2, hv, h.symm⟩
  · rintro ⟨j, hin, hrow, hv, he⟩
    rw [(hB.find_pos_eq_some _ _ j).mpr ⟨hin, hrow⟩]
    simp only [ne_eq, hv, not_false_eq_true, if_true, he]

/-! ## The loop invariant is established and preserved -/

theorem merge_inv.cond_iff [Mul eT] [Zero eT] [DecidableEq eT] {A B : SpMat eT} {m i j : Nat}
    {s : merge_state eT} (h : merge_inv A B m i j s) :
    merge_cond A B s = true ↔ i ≠ A.n_nonzero ∨ j ≠ B.n_nonzero := by
  unfold merge_cond
  rw [h.x_eq, h.y_eq]
  simp only [Bool.or_eq_true, decide_eq_true_eq, ne_eq, SpMat.iter_at_eq_end]

theorem merge_inv.x_index [Mul eT] [Zero eT] [DecidableEq eT] {A B : SpMat eT} {m i j : Nat}
    {s : merge_state eT} (h : merge_inv A B m i j s) :
    s.x_it.row A + s.x_it.col * A.n_rows = A.key i := by
  rw [h.x_eq]; rfl

theorem merge_inv.y_index [Mul eT] [Zero eT] [DecidableEq eT] {A B : SpMat eT} {m i j : Nat}
    {s : merge_state eT} (h : merge_inv A B m i j s) (hr : A.n_rows = B.n_rows) :
    s.y_it.row B + s.y_it.col * A.n_rows = B.key j := by
  rw [h.y_eq, hr]; rfl

/-- When the two linear indices are equal, both iterators are live. -/
theorem merge_inv.live_of_key_eq [Mul eT] [Zero eT] [DecidableEq eT] {A B : SpMat eT}
    {m i j : Nat} {s : merge_state eT} (h : merge_inv A B m i j s) (hA : A.valid) (hB : B.valid)
    (hr : A.n_rows = B.n_rows) (hc : A.n_cols = B.n_cols)
    (hcond : i ≠ A.n_nonzero ∨ j ≠ B.n_nonzero) (hk : A.key i = B.key j) :
    i < A.n_nonzero ∧ j < B.n_nonzero := by
  have hi := h.i_le
  have hj := h.j_le
  by_cases hi' : i = A.n_nonzero
  · have hj' : j < B.n_nonzero := by omega
    have h1 := hB.key_lt_size j hj'
    have h2 := A.size_le_key_end
    rw [← hi', hk, hr, hc] at h2
    omega
  · by_cases hj' : j = B.n_nonzero
    · have h1 := hA.key_lt_size i (by omega)
      have h2 := B.size_le_key_end
      rw [← hj', ← hk, ← hr, ← hc] at h2
      omega
    · omega

/-- When `x` is behind, `x` is live. -/
theorem merge_inv.x_live_of_key_lt [Mul eT] [Zero eT] [DecidableEq eT] {A B : SpMat eT}
    {m i j : Nat} {s : merge_state eT} (h : merge_inv A B m i j s) (hB : B.valid)
    (hr : A.n_rows = B.n_rows) (hc : A.n_cols = B.n_cols)
    (hcond : i ≠ A.n_nonzero ∨ j ≠ B.n_nonzero) (hk : A.key i < B.key j) :
    i < A.n_nonzero := by
  have hi := h.i_le
  have hj := h.j_le
  by_contra hi'
  have hi'' : i = A.n_nonzero := by omega
  have hj' : j < B.n_nonzero := by omega
  have h1 := hB.key_lt_size j hj'
  have h2 := A.size_le_key_end
  rw [← hi'', hr, hc] at h2
  omega

/-- When `y` is behind, `y` is live. -/
theorem merge_inv.y_live_of_key_gt [Mul eT] [Zero eT] [DecidableEq eT] {A B : SpMat eT}
    {m i j : Nat} {s : merge_state eT} (h : merge_inv A B m i j s) (hA : A.valid)
    (hr : A.n_rows = B.n_rows) (hc : A.n_cols = B.n_cols)
    (hcond : i ≠ A.n_nonzero ∨ j ≠ B.n_nonzero) (hk : B.key j < A.key i) :
    j < B.n_nonzero := by
  have hi := h.i_le
  have hj := h.j_le
  by_contra hj'
  have hj'' : j = B.n_nonzero := by omega
  have hi' : i < A.n_nonzero := by omega
  have h1 := hA.key_lt_size i hi'
  have h2 := B.size_le_key_end
  rw [← hj'', ← hr, ← hc] at h2
  omega

theorem merge_init_inv [Mul eT] [Zero eT] [DecidableEq eT] {A B : SpMat eT} (hA : A.valid)
    (hB : B.valid) (out : SpMat eT) (m : Nat) :
    merge_inv A B m 0 0 (merge_init A B (out.reserve A.n_rows A.n_cols m)) where
  i_le := Nat.zero_le _
  j_le := Nat.zero_le _
  x_eq := hA.begin_eq
  y_eq := hB.begin_eq
  x_behind := fun i' hi' => absurd hi' (Nat.not_lt_zero _)
  y_behind := fun j' hj' => absurd hj' (Nat.not_lt_zero _)
  count_eq := rfl
  entries := by
    intro p e he
    simp [emitted] at he
  tallies := by
    intro k
    simp only [emitted, merge_init, SpMat.reserve, List.range_zero, List.filterMap_nil,
      List.countP_nil]
    exact getD_replicate_zero _ _
  values_length := by simp [merge_init, SpMat.reserve]
  row_indices_length := by simp [merge_init, SpMat.reserve]
  col_ptrs_length := by simp [merge_init, SpMat.reserve]
  n_rows_eq := rfl
  n_cols_eq := rfl
  n_nonzero_eq := rfl

theorem merge_body_inv [Mul eT] [Zero eT] [DecidableEq eT] {A B : SpMat eT} (hA : A.valid)
    (hB : B.valid) (hr : A.n_rows = B.n_rows) (hc : A.n_cols = B.n_cols) (m : Nat)
    (hm : ∀ i ≤ A.n_nonzero, (emitted A B i).length ≤ m) (i j : Nat) (s : merge_state eT)
    (h : merge_inv A B m i j s) (hcond : merge_cond A B s = true) :
    ∃ i' j', merge_inv A B m i' j' (merge_body A B A.n_rows s) ∧
      i ≤ i' ∧ j ≤ j' ∧ i + j < i' + j' := by
  have hcond' := h.cond_iff.mp hcond
  have hx := h.x_index
  have hy := h.y_index hr
  have hi := h.i_le
  have hj := h.j_le
  unfold merge_body
  simp only [hx, hy]
  by_cases hk : A.key i = B.key j
  · -- both entries are at the same position
    obtain ⟨hi', hj'⟩ := h.live_of_key_eq hA hB hr hc hcond' hk
    have hxn : s.x_it.next A = A.iter_at (i + 1) := by rw [h.x_eq]; exact hA.next_iter_at i hi'
    have hyn : s.y_it.next B = B.iter_at (j + 1) := by rw [h.y_eq]; exact hB.next_iter_at j hj'
    have hxb : ∀ i' < i + 1, A.key i' < B.key (j + 1) := by
      intro i' hlt
      have h1 := hA.key_le_of_le i' i (by omega) (by omega)
      have h2 := hB.key_strict_mono j (j + 1) (by omega) (by omega)
      omega
    have hyb : ∀ j' < j + 1, B.key j' < A.key (i + 1) := by
      intro j' hlt
      have h1 := hB.key_le_of_le j' j (by omega) (by omega)
      have h2 := hA.key_strict_mono i (i + 1) (by omega) (by omega)
      omega
    have hxd : s.x_it.deref A = A.values.getD i 0 := by rw [h.x_eq]; rfl
    have hyd : s.y_it.deref B = B.values.getD j 0 := by rw [h.y_eq]; rfl
    have hxr : s.x_it.row A = A.row_indices.getD i 0 := by rw [h.x_eq]; rfl
    have hxc : s.x_it.col = A.col_of i := by
      rw [h.x_eq]; simp only [const_iterator.col, SpMat.iter_at, hi', if_true]
    have hem := emit_of_key_eq hA hB hr i j hi' hj' hk
    have hsucc := emitted_succ A B i
    rw [if_pos hk, hxd, hyd, hxr, hxc, hxn, hyn]
    refine ⟨i + 1, j + 1, ?_, by omega, by omega, by omega⟩
    by_cases hv : A.values.getD i 0 * B.values.getD j 0 = 0
    · rw [if_neg (not_not.mpr hv)] at hem
      rw [hem] at hsucc
      simp only [Option.toList, List.append_nil] at hsucc
      rw [if_neg (not_not.mpr hv)]
      exact
        { i_le := hi', j_le := hj', x_eq := rfl, y_eq := rfl, x_behind := hxb, y_behind := hyb
          count_eq := by rw [hsucc]; exact h.count_eq
          entries := by rw [hsucc]; exact h.entries
          tallies := by rw [hsucc]; exact h.tallies
          values_length := h.values_length
          row_indices_length := h.row_indices_length
          col_ptrs_length := h.col_ptrs_length
          n_rows_eq := h.n_rows_eq, n_cols_eq := h.n_cols_eq, n_nonzero_eq := h.n_nonzero_eq }
    · rw [if_pos hv] at hem
      rw [hem] at hsucc
      simp only [Option.toList] at hsucc
      rw [if_pos hv]
      have hlen : (emitted A B i).length < m := by
        have := hm (i + 1) hi'
        rw [hsucc, List.length_append] at this
        simp only [List.length_singleton] at this
        omega
      have hcol : A.col_of i < A.n_cols := (hA.in_col_col_of i hi').1
      exact
        { i_le := hi', j_le := hj', x_eq := rfl, y_eq := rfl, x_behind := hxb, y_behind := hyb
          count_eq := by rw [hsucc, List.length_append, h.count_eq]; rfl
          entries := by
            intro p e he
            rw [hsucc, List.getElem?_append] at he
            by_cases hp : p < (emitted A B i).length
            · rw [if_pos hp] at he
              have := h.entries p e he
              simp only
              rw [getD_set_ne _ _ _ _ _ (by rw [h.count_eq]; omega),
                getD_set_ne _ _ _ _ _ (by rw [h.count_eq]; omega)]
              exact this
            · rw [if_neg hp] at he
              have hp' : p = (emitted A B i).length := by
                by_contra hne
                rw [List.getElem?_eq_none (by simp only [List.length_singleton]; omega)] at he
                cases he
              subst hp'
              simp only [Nat.sub_self, List.getElem?_cons_zero, Option.some.injEq] at he
              subst he
              simp only
              rw [h.count_eq, getD_set_self _ _ _ _ (by rw [h.values_length]; omega),
                getD_set_self _ _ _ _ (by rw [h.row_indices_length]; omega)]
              exact ⟨rfl, rfl⟩
          tallies := by
            intro k
            rw [hsucc, List.countP_append]
            simp only [List.countP_cons, List.countP_nil, Nat.zero_add]
            by_cases hkk : A.col_of i + 1 = k
            · subst hkk
              rw [getD_set_self _ _ _ _ (by rw [h.col_ptrs_length]; omega), h.tallies]
              simp
            · rw [getD_set_ne _ _ _ _ _ hkk, h.tallies]
              simp [hkk]
          values_length := by simp only [List.length_set]; exact h.values_length
          row_indices_length := by simp only [List.length_set]; exact h.row_indices_length
          col_ptrs_length := by simp only [List.length_set]; exact h.col_ptrs_length
          n_rows_eq := h.n_rows_eq, n_cols_eq := h.n_cols_eq, n_nonzero_eq := h.n_nonzero_eq }
  · rw [if_neg hk]
    by_cases hlt : A.key i < B.key j
    · -- `x` is behind: its entry has no partner in `B`
      rw [if_pos hlt]
      have hi' := h.x_live_of_key_lt hB hr hc hcond' hlt
      have hxn : s.x_it.next A = A.iter_at (i + 1) := by rw [h.x_eq]; exact hA.next_iter_at i hi'
      have hem : emit A B i = none := by
        apply emit_of_key_ne hA hB hr i hi'
        intro j' hj' heq
        by_cases hjj : j' < j
        · have := h.y_behind j' hjj; omega
        · have := hB.key_le_of_le j j' (by omega) (by omega); omega
      have hsucc := emitted_succ A B i
      rw [hem] at hsucc
      simp only [Option.toList, List.append_nil] at hsucc
      refine ⟨i + 1, j, ?_, by omega, by omega, by omega⟩
      rw [hxn]
      exact
        { i_le := hi', j_le := hj, x_eq := rfl, y_eq := h.y_eq
          x_behind := by
            intro i' hi''
            have := hA.key_le_of_le i' i (by omega) (by omega); omega
          y_behind := by
            intro j' hj''
            have := h.y_behind j' hj''
            have := hA.key_strict_mono i (i + 1) (by omega) (by omega); omega
          count_eq := by rw [hsucc]; exact h.count_eq
          entries := by rw [hsucc]; exact h.entries
          tallies := by rw [hsucc]; exact h.tallies
          values_length := h.values_length
          row_indices_length := h.row_indices_length
          col_ptrs_length := h.col_ptrs_length
          n_rows_eq := h.n_rows_eq, n_cols_eq := h.n_cols_eq, n_nonzero_eq := h.n_nonzero_eq }
    · -- `y` is behind
      rw [if_neg hlt]
      have hgt : B.key j < A.key i := by omega
      have hj' := h.y_live_of_key_gt hA hr hc hcond' hgt
      have hyn : s.y_it.next B = B.iter_at (j + 1) := by rw [h.y_eq]; exact hB.next_iter_at j hj'
      refine ⟨i, j + 1, ?_, by omega, by omega, by omega⟩
      rw [hyn]
      exact
        { i_le := hi, j_le := hj', x_eq := h.x_eq, y_eq := rfl
          x_behind := by
            intro i' hi''
            have := h.x_behind i' hi''
            have := hB.key_strict_mono j (j + 1) (by omega) (by omega); omega
          y_behind := by
            intro j' hj''
            have := hB.key_le_of_le j' j (by omega) (by omega); omega
          count_eq := h.count_eq
          entries := h.entries
          tallies := h.tallies
          values_length := h.values_length
          row_indices_length := h.row_indices_length
          col_ptrs_length := h.col_ptrs_length
          n_rows_eq := h.n_rows_eq, n_cols_eq := h.n_cols_eq, n_nonzero_eq := h.n_nonzero_eq }

/-- The loop ends within the iteration budget, with both inputs consumed. -/
theorem merge_loop_inv [Mul eT] [Zero eT] [DecidableEq eT] {A B : SpMat eT} (hA : A.valid)
    (hB : B.valid) (hr : A.n_rows = B.n_rows) (hc : A.n_cols = B.n_cols) (m : Nat)
    (hm : ∀ i ≤ A.n_nonzero, (emitted A B i).length ≤ m) :
    ∀ (fuel i j : Nat) (s : merge_state eT), merge_inv A B m i j s →
      (A.n_nonzero - i) + (B.n_nonzero - j) ≤ fuel →
      ∃ s', merge_loop A B A.n_rows fuel s = some s' ∧
        merge_inv A B m A.n_nonzero B.n_nonzero s' := by
  intro fuel
  induction fuel with
  | zero =>
    intro i j s h hfuel
    have hi := h.i_le
    have hj := h.j_le
    have hnc : ¬ (merge_cond A B s = true) := by rw [h.cond_iff]; omega
    have hi' : i = A.n_nonzero := by omega
    have hj' : j = B.n_nonzero := by omega
    subst hi' hj'
    exact ⟨s, by simp [merge_loop, hnc], h⟩
  | succ k ih =>
    intro i j s h hfuel
    have hi := h.i_le
    have hj := h.j_le
    by_cases hcond : merge_cond A B s = true
    · obtain ⟨i', j', h', hii, hjj, hprog⟩ := merge_body_inv hA hB hr hc m hm i j s h hcond
      have hi' := h'.i_le
      have hj' := h'.j_le
      obtain ⟨s', hs', hinv'⟩ := ih i' j' _ h' (by omega)
      exact ⟨s', by simp only [merge_loop, hcond, if_true]; exact hs', hinv'⟩
    · have hnc := hcond
      rw [h.cond_iff] at hnc
      have hi' : i = A.n_nonzero := by omega
      have hj' : j = B.n_nonzero := by omega
      subst hi' hj'
      exact ⟨s, by simp [merge_loop, hcond], h⟩

/-- The invariant holds after any number of iterations. -/
theorem merge_after_inv [Mul eT] [Zero eT] [DecidableEq eT] {A B : SpMat eT} (hA : A.valid)
    (hB : B.valid) (hr : A.n_rows = B.n_rows) (hc : A.n_cols = B.n_cols) (m : Nat)
    (hm : ∀ i ≤ A.n_nonzero, (emitted A B i).length ≤ m) :
    ∀ (k i j : Nat) (s : merge_state eT), merge_inv A B m i j s →
      ∃ i' j', merge_inv A B m i' j' (merge_after A B A.n_rows k s) := by
  intro k
  induction k with
  | zero => intro i j s h; exact ⟨i, j, h⟩
  | succ k ih =>
    intro i j s h
    by_cases hcond : merge_cond A B s = true
    · obtain ⟨i', j', h', -, -, -⟩ := merge_body_inv hA hB hr hc m hm i j s h hcond
      simp only [merge_after, hcond, if_true]
      exact ih i' j' _ h'
    · have hf : merge_after A B A.n_rows (k + 1) s = s := by simp [merge_after, hcond]
      rw [hf]
      exact ⟨i, j, h⟩

/-! ## Column pointers: from tallies to offsets -/

theorem countP_lt_succ {α : Type} (f : α → Nat) (l : List α) (k : Nat) :
    l.countP (fun e => decide (f e < k + 1)) =
      l.countP (fun e => decide (f e < k)) + l.countP (fun e => decide (f e + 1 = k + 1)) := by
  induction l with
  | nil => rfl
  | cons a t ih =>
    simp only [List.countP_cons, ih, decide_eq_true_eq]
    split_ifs <;> omega

theorem fix_col_ptrs_spec {α : Type} (f : α → Nat) (E : List α) (n : Nat) (cp : List Nat)
    (hlen : cp.length = n + 1)
    (htally : ∀ k, cp.getD k 0 = E.countP (fun e => decide (f e + 1 = k))) :
    ∀ n' ≤ n, (fix_col_ptrs n' cp).length = n + 1 ∧
      ∀ k, (fix_col_ptrs n' cp).getD k 0 =
        if k ≤ n' then E.countP (fun e => decide (f e < k))
        else E.countP (fun e => decide (f e + 1 = k)) := by
  intro n'
  induction n' with
  | zero =>
    intro _
    refine ⟨hlen, ?_⟩
    intro k
    simp only [fix_col_ptrs, List.range'_zero, List.foldl_nil, htally]
    by_cases hk : k ≤ 0
    · have : k = 0 := by omega
      subst this
      simp
    · rw [if_neg hk]
  | succ n' ih =>
    intro hn
    obtain ⟨hl, hv⟩ := ih (by omega)
    have hstep : fix_col_ptrs (n' + 1) cp =
        (fix_col_ptrs n' cp).set (n' + 1)
          ((fix_col_ptrs n' cp).getD (n' + 1) 0 + (fix_col_ptrs n' cp).getD n' 0) := by
      simp only [fix_col_ptrs, List.range'_concat, List.foldl_append, List.foldl_cons,
        List.foldl_nil, Nat.one_mul]
      have : 1 + n' = n' + 1 := by omega
      rw [this]; rfl
    rw [hstep]
    refine ⟨by rw [List.length_set]; exact hl, ?_⟩
    intro k
    by_cases hk : n' + 1 = k
    · subst hk
      rw [getD_set_self _ _ _ _ (by omega), hv, hv]
      simp only [Nat.not_succ_le_self, if_false, le_refl, if_true]
      rw [countP_lt_succ]; omega
    · rw [getD_set_ne _ _ _ _ _ hk, hv]
      by_cases hk' : k ≤ n'
      · have : k ≤ n' + 1 := by omega
        simp only [hk', this, if_true]
      · have : ¬ (k ≤ n' + 1) := by omega
        simp only [hk', this, if_false]

/-! ## A matrix that stores a sorted list of entries -/

theorem sorted_entries.cols_ascending {n_rows n_cols : Nat} {E : List (entry eT)}
    (h : sorted_entries n_rows n_cols E) : E.Pairwise (fun e e' => e.2.1 ≤ e'.2.1) := by
  refine List.Pairwise.imp_of_mem ?_ h.ascending
  intro a b _ hb hlt
  by_contra hcol
  have := linear_index_lt_of_col_lt n_rows b.1 b.2.1 a.1 a.2.1 (h.in_shape b hb).1 (by omega)
  omega

theorem countP_col_le_iff {α : Type} (f : α → Nat) :
    ∀ (E : List α), E.Pairwise (fun e e' => f e ≤ f e') → ∀ (p : Nat) (e : α),
      E[p]? = some e → ∀ k, (E.countP (fun a => decide (f a < k)) ≤ p ↔ k ≤ f e) := by
  intro E
  induction E with
  | nil => intro _ p e he; simp at he
  | cons a t ih =>
    intro hpw p e he k
    rw [List.pairwise_cons] at hpw
    simp only [List.countP_cons, decide_eq_true_eq]
    by_cases hak : f a < k
    · rw [if_pos hak]
      cases p with
      | zero =>
        simp only [List.getElem?_cons_zero, Option.some.injEq] at he
        subst he
        omega
      | succ p =>
        simp only [List.getElem?_cons_succ] at he
        have := ih hpw.2 p e he k
        omega
    · rw [if_neg hak]
      have hzero : t.countP (fun a => decide (f a < k)) = 0 := by
        rw [List.countP_eq_zero]
        intro b hb
        have := hpw.1 b hb
        simp only [decide_eq_true_eq]
        omega
      rw [hzero]
      cases p with
      | zero =>
        simp only [List.getElem?_cons_zero, Option.some.injEq] at he
        subst he
        omega
      | succ p =>
        simp only [List.getElem?_cons_succ] at he
        have hmem : e ∈ t := List.mem_iff_getElem?.mpr ⟨p, he⟩
        have := hpw.1 e hmem
        omega

theorem holds_entries.in_col_iff [Zero eT] {R : SpMat eT} {n_rows n_cols : Nat}
    {E : List (entry eT)} (h : holds_entries R n_rows n_cols E)
    (hs : sorted_entries n_rows n_cols E) (c p : Nat) :
    R.in_col c p ↔ ∃ e, E[p]? = some e ∧ e.2.1 = c := by
  unfold SpMat.in_col
  rw [h.n_cols_eq]
  constructor
  · rintro ⟨hc, hlo, hhi⟩
    rw [h.col_ptrs_eq c (by omega)] at hlo
    rw [h.col_ptrs_eq (c + 1) (by omega)] at hhi
    have hp : p < E.length := by
      have := List.countP_le_length (fun e : entry eT => decide (e.2.1 < c + 1)) (l := E)
      omega
    refine ⟨E[p], List.getElem?_eq_getElem hp, ?_⟩
    have h1 := (countP_col_le_iff (fun e : entry eT => e.2.1) E hs.cols_ascending p E[p]
      (List.getElem?_eq_getElem hp) c).mp hlo
    have h2 := (countP_col_le_iff (fun e : entry eT => e.2.1) E hs.cols_ascending p E[p]
      (List.getElem?_eq_getElem hp) (c + 1))
    omega
  · rintro ⟨e, he, hcol⟩
    have hmem : e ∈ E := List.mem_iff_getElem?.mpr ⟨p, he⟩
    have hc : c < n_cols := by rw [← hcol]; exact (hs.in_shape e hmem).2
    have h1 := countP_col_le_iff (fun e : entry eT => e.2.1) E hs.cols_ascending p e he c
    have h2 := countP_col_le_iff (fun e : entry eT => e.2.1) E hs.cols_ascending p e he (c + 1)
    rw [h.col_ptrs_eq c (by omega), h.col_ptrs_eq (c + 1) (by omega)]
    simp only at h1 h2
    exact ⟨hc, by omega, by omega⟩

theorem holds_entries.valid [Zero eT] {R : SpMat eT} {n_rows n_cols : Nat}
    {E : List (entry eT)} (h : holds_entries R n_rows n_cols E)
    (hs : sorted_entries n_rows n_cols E) : R.valid := by
  refine ⟨by rw [h.col_ptrs_length, h.n_cols_eq], ?_, ?_, ?_, ?_, ?_, ?_, ?_⟩
  · rw [h.col_ptrs_eq 0 (Nat.zero_le _), List.countP_eq_zero]
    intro a _; simp
  · intro c hc
    rw [h.n_cols_eq] at hc
    rw [h.col_ptrs_eq c (by omega), h.col_ptrs_eq (c + 1) (by omega)]
    apply List.countP_mono_left
    intro a _ ha
    simp only [decide_eq_true_eq] at ha ⊢
    omega
  · rw [h.n_cols_eq, h.col_ptrs_eq n_cols (le_refl _), h.n_nonzero_eq, List.countP_eq_length]
    intro a ha
    simp only [decide_eq_true_eq]
    exact (hs.in_shape a ha).2
  · rw [h.n_nonzero_eq]; exact h.values_length
  · rw [h.n_nonzero_eq]; exact h.row_indices_length
  · intro p hp
    rw [h.n_nonzero_eq] at hp
    rw [(h.entries p E[p] (List.getElem?_eq_getElem hp)).2, h.n_rows_eq]
    exact (hs.in_shape E[p] (List.getElem_mem _)).1
  · intro c hc p hp hlo hhi
    have hin1 : R.in_col c p := ⟨hc, hlo, by omega⟩
    have hin2 : R.in_col c (p + 1) := ⟨hc, by omega, hhi⟩
    obtain ⟨e1, he1, hc1⟩ := (h.in_col_iff hs c p).mp hin1
    obtain ⟨e2, he2, hc2⟩ := (h.in_col_iff hs c (p + 1)).mp hin2
    rw [(h.entries p e1 he1).2, (h.entries (p + 1) e2 he2).2]
    obtain ⟨hp1, hg1⟩ := List.getElem?_eq_some.mp he1
    obtain ⟨hp2, hg2⟩ := List.getElem?_eq_some.mp he2
    have := (List.pairwise_iff_getElem.mp hs.ascending) p (p + 1) hp1 hp2 (by omega)
    rw [hg1, hg2, hc1, hc2] at this
    omega

/-- Where a matrix that stores a sorted list of entries keeps position `(r, c)`. -/
theorem holds_entries.find_pos_iff_entry [Zero eT] {R : SpMat eT} {n_rows n_cols : Nat}
    {E : List (entry eT)} (h : holds_entries R n_rows n_cols E)
    (hs : sorted_entries n_rows n_cols E) (r c p : Nat) :
    R.find_pos r c = some p ↔ ∃ v, E[p]? = some (r, c, v) := by
  rw [(h.valid hs).find_pos_eq_some r c p, h.in_col_iff hs c p]
  constructor
  · rintro ⟨⟨e, he, hcol⟩, hrow⟩
    rw [(h.entries p e he).2] at hrow
    refine ⟨e.2.2, ?_⟩
    rw [he, ← hrow, ← hcol]
  · rintro ⟨v, hv⟩
    exact ⟨⟨(r, c, v), hv, rfl⟩, (h.entries p _ hv).2⟩

/-! ## The entries contributed by `A` and `B` -/

theorem SpMat.mem_positions (M : SpMat eT) (r c : Nat) :
    (r, c) ∈ M.positions ↔ r < M.n_rows ∧ c < M.n_cols := by
  unfold SpMat.positions
  have h := @List.mem_product _ _ (List.range M.n_rows) (List.range M.n_cols) r c
  simp only [List.mem_range] at h
  exact h

theorem SpMat.positions_nodup (M : SpMat eT) : M.positions.Nodup :=
  List.Nodup.product (List.nodup_range _) (List.nodup_range _)

theorem mem_emitted [Mul eT] [Zero eT] [DecidableEq eT] (A B : SpMat eT) (i : Nat)
    (e : entry eT) : e ∈ emitted A B i ↔ ∃ a < i, emit A B a = some e := by
  unfold emitted
  rw [List.mem_filterMap]
  constructor
  · rintro ⟨a, ha, he⟩; exact ⟨a, List.mem_range.mp ha, he⟩
  · rintro ⟨a, ha, he⟩; exact ⟨a, List.mem_range.mpr ha, he⟩

theorem emit_index [Mul eT] [Zero eT] [DecidableEq eT] {A B : SpMat eT} (hB : B.valid)
    (a : Nat) (ha : a < A.n_nonzero) (e : entry eT) (he : emit A B a = some e) :
    e.1 + e.2.1 * A.n_rows = A.key a := by
  obtain ⟨j, -, -, -, rfl⟩ := (emit_some_iff hB a e).mp he
  rw [A.key_of_lt a ha]

theorem emitted_sorted [Mul eT] [Zero eT] [DecidableEq eT] {A B : SpMat eT} (hA : A.valid)
    (hB : B.valid) (i : Nat) (hi : i ≤ A.n_nonzero) :
    sorted_entries A.n_rows A.n_cols (emitted A B i) where
  ascending := by
    unfold emitted
    refine List.Pairwise.filterMap (R := fun a a' => a < a' ∧ a' < A.n_nonzero) _ ?_ ?_
    · intro a a' haa b hb b' hb'
      rw [emit_index hB a (by omega) b hb, emit_index hB a' haa.2 b' hb']
      exact hA.key_strict_mono a a' haa.1 (le_of_lt haa.2)
    · refine List.Pairwise.imp_of_mem ?_ (List.pairwise_lt_range i)
      intro a b _ hb hab
      exact ⟨hab, by have := List.mem_range.mp hb; omega⟩
  in_shape := by
    intro e he
    obtain ⟨a, ha, hem⟩ := (mem_emitted A B i e).mp he
    obtain ⟨j, -, -, -, rfl⟩ := (emit_some_iff hB a e).mp hem
    exact ⟨hA.row_lt a (by omega), (hA.in_col_col_of a (by omega)).1⟩

/-- An entry is contributed exactly when both inputs store its position and the product
of the two stored values, which is its value, is not zero. -/
theorem mem_emitted_iff [Mul eT] [Zero eT] [DecidableEq eT] {A B : SpMat eT} (hA : A.valid)
    (hB : B.valid) (r c : Nat) (v : eT) :
    (r, c, v) ∈ emitted A B A.n_nonzero ↔
      ∃ i j, A.in_col c i ∧ A.row_indices.getD i 0 = r ∧ B.in_col c j ∧
        B.row_indices.getD j 0 = r ∧ v = A.values.getD i 0 * B.values.getD j 0 ∧ v ≠ 0 := by
  rw [mem_emitted]
  constructor
  · rintro ⟨a, ha, hem⟩
    obtain ⟨j, hin, hrow, hv, he⟩ := (emit_some_iff hB a _).mp hem
    simp only [Prod.mk.injEq] at he
    obtain ⟨h1, h2, h3⟩ := he
    subst h1 h2 h3
    exact ⟨a, j, hA.in_col_col_of a ha, rfl, hin, hrow, rfl, hv⟩
  · rintro ⟨i, j, hi, hri, hj, hrj, hv, hne⟩
    refine ⟨i, hA.in_col_lt hi, ?_⟩
    rw [emit_some_iff hB]
    have hcol := hA.col_of_eq hi
    refine ⟨j, by rw [hcol]; exact hj, by rw [hrj, hri], by rw [← hv]; exact hne, ?_⟩
    rw [hri, hcol, hv]

theorem emitted_positions_nodup [Mul eT] [Zero eT] [DecidableEq eT] {A B : SpMat eT}
    (hA : A.valid) (hB : B.valid) (i : Nat) (hi : i ≤ A.n_nonzero) :
    ((emitted A B i).map (fun e => (e.1, e.2.1))).Nodup := by
  unfold List.Nodup
  refine List.Pairwise.map _ ?_ (emitted_sorted hA hB i hi).ascending
  intro a b hlt heq
  simp only [Prod.mk.injEq] at heq
  rw [heq.1, heq.2] at hlt
  omega

theorem emitted_length_eq_schur_nnz [Mul eT] [Zero eT] [DecidableEq eT] {A B : SpMat eT}
    (hA : A.valid) (hB : B.valid) :
    (emitted A B A.n_nonzero).length = schur_nnz A B := by
  unfold schur_nnz
  rw [← List.length_map (emitted A B A.n_nonzero) (fun e => (e.1, e.2.1))]
  apply List.Perm.length_eq
  rw [List.perm_ext_iff_of_nodup (emitted_positions_nodup hA hB _ (le_refl _))
    (List.Nodup.filter _ A.positions_nodup)]
  rintro ⟨r, c⟩
  rw [List.mem_filter, List.mem_map]
  simp only [Bool.and_eq_true, decide_eq_true_eq]
  constructor
  · rintro ⟨⟨r', c', v⟩, he, heq⟩
    simp only [Prod.mk.injEq] at heq
    obtain ⟨h1, h2⟩ := heq
    subst h1 h2
    obtain ⟨i, j, hi, hri, hj, hrj, hv, hne⟩ := (mem_emitted_iff hA hB r' c' v).mp he
    refine ⟨?_, ⟨(hA.stored_iff _ _).mpr ⟨i, hi, hri⟩, (hB.stored_iff _ _).mpr ⟨j, hj, hrj⟩⟩, ?_⟩
    · exact (A.mem_positions _ _).mpr ⟨by rw [← hri]; exact hA.row_lt i (hA.in_col_lt hi), hi.1⟩
    · rw [← hri, hA.get_value_of_in_col hi, hri, ← hrj, hB.get_value_of_in_col hj, ← hv]
      exact hne
  · rintro ⟨-, ⟨hsA, hsB⟩, hne⟩
    obtain ⟨i, hi, hri⟩ := (hA.stored_iff _ _).mp hsA
    obtain ⟨j, hj, hrj⟩ := (hB.stored_iff _ _).mp hsB
    rw [← hri, hA.get_value_of_in_col hi, hri, ← hrj, hB.get_value_of_in_col hj] at hne
    refine ⟨(r, c, A.values.getD i 0 * B.values.getD j 0), ?_, rfl⟩
    exact (mem_emitted_iff hA hB r c _).mpr ⟨i, j, hi, hri, hj, hrj, rfl, hne⟩

theorem emitted_length_mono [Mul eT] [Zero eT] [DecidableEq eT] (A B : SpMat eT) (i n : Nat)
    (h : i ≤ n) : (emitted A B i).length ≤ (emitted A B n).length := by
  obtain ⟨d, rfl⟩ := Nat.exists_eq_add_of_le h
  unfold emitted
  rw [List.range_add, List.filterMap_append, List.length_append]
  omega

theorem schur_nnz_le_common [Mul eT] [Zero eT] [DecidableEq eT] (A B : SpMat eT) :
    schur_nnz A B ≤ common_positions A B := by
  unfold schur_nnz common_positions
  rw [← List.countP_eq_length_filter, ← List.countP_eq_length_filter]
  apply List.countP_mono_left
  intro rc _ h
  simp only [Bool.and_eq_true] at h ⊢
  exact h.1

theorem emitted_length_le [Mul eT] [Zero eT] [DecidableEq eT] {A B : SpMat eT}
    (hA : A.valid) (hB : B.valid) (m : Nat) (hm : schur_nnz A B ≤ m) (i : Nat)
    (hi : i ≤ A.n_nonzero) : (emitted A B i).length ≤ m := by
  have := emitted_length_mono A B i A.n_nonzero hi
  rw [emitted_length_eq_schur_nnz hA hB] at this
  omega

/-! ## Finalisation and the result of `apply_noalias` -/

theorem rightsize_holds [Zero eT] (m : Nat) (out2 : SpMat eT) (n_rows n_cols : Nat)
    (E : List (entry eT)) (hle : E.length ≤ m) (h1 : out2.n_rows = n_rows)
    (h2 : out2.n_cols = n_cols) (h3 : out2.n_nonzero = m)
    (hent : ∀ p e, E[p]? = some e →
      out2.values.getD p 0 = e.2.2 ∧ out2.row_indices.getD p 0 = e.1)
    (hcl : out2.col_ptrs.length = n_cols + 1)
    (hcp : ∀ k ≤ n_cols, out2.col_ptrs.getD k 0 = E.countP (fun e => decide (e.2.1 < k)))
    (hvl : out2.values.length = m + 1) (hrl : out2.row_indices.length = m + 1) :
    holds_entries (rightsize m E.length out2) n_rows n_cols E := by
  unfold rightsize
  by_cases hlt : E.length < m
  · rw [if_pos hlt]
    by_cases hhalf : E.length ≤ m / 2
    · rw [if_pos hhalf]
      exact
        { n_rows_eq := h1, n_cols_eq := h2, n_nonzero_eq := rfl
          entries := by
            intro p e he
            have hp : p < E.length := (List.getElem?_eq_some.mp he).1
            simp only [SpMat.mem_resize]
            rw [getD_map_range_append _ _ _ _ _ hp, getD_map_range_append _ _ _ _ _ hp]
            exact hent p e he
          col_ptrs_length := hcl
          col_ptrs_eq := hcp
          values_length := by simp [SpMat.mem_resize]
          row_indices_length := by simp [SpMat.mem_resize] }
    · rw [if_neg hhalf]
      exact
        { n_rows_eq := h1, n_cols_eq := h2, n_nonzero_eq := rfl
          entries := by
            intro p e he
            have hp : p < E.length := (List.getElem?_eq_some.mp he).1
            simp only
            rw [getD_set_ne _ _ _ _ _ (by omega), getD_set_ne _ _ _ _ _ (by omega)]
            exact hent p e he
          col_ptrs_length := hcl
          col_ptrs_eq := hcp
          values_length := by simp only [List.length_set]; omega
          row_indices_length := by simp only [List.length_set]; omega }
  · rw [if_neg hlt]
    exact
      { n_rows_eq := h1, n_cols_eq := h2, n_nonzero_eq := by omega
        entries := hent
        col_ptrs_length := hcl
        col_ptrs_eq := hcp
        values_length := by omega
        row_indices_length := by omega }

theorem emitted_eq_nil [Mul eT] [Zero eT] [DecidableEq eT] {A B : SpMat eT}
    (hB : B.valid) (h0 : A.n_nonzero = 0 ∨ B.n_nonzero = 0) :
    emitted A B A.n_nonzero = [] := by
  rw [List.eq_nil_iff_forall_not_mem]
  intro e he
  obtain ⟨a, ha, hem⟩ := (mem_emitted A B _ e).mp he
  obtain ⟨j, hin, -, -, -⟩ := (emit_some_iff hB a e).mp hem
  have := hB.in_col_lt hin
  omega

theorem zeros_holds [Zero eT] (out : SpMat eT) (n_rows n_cols : Nat) :
    holds_entries (out.zeros n_rows n_cols) n_rows n_cols [] where
  n_rows_eq := rfl
  n_cols_eq := rfl
  n_nonzero_eq := rfl
  entries := by intro p e he; simp at he
  col_ptrs_length := by simp [SpMat.zeros]
  col_ptrs_eq := by
    intro k _
    simp only [SpMat.zeros, List.countP_nil]
    exact getD_replicate_zero _ _
  values_length := by simp [SpMat.zeros]
  row_indices_length := by simp [SpMat.zeros]

theorem assert_same_size_ok (r c : Nat) (x : String) :
    arma_debug_assert_same_size r c r c x = Status.ok := by
  simp [arma_debug_assert_same_size]

/-- On valid same-shaped inputs, with an estimate that is at least the number of nonzero
results, `apply_noalias` ends normally and leaves in `out` a matrix that stores exactly
the contributed entries. -/
theorem apply_noalias_holds [Mul eT] [Zero eT] [DecidableEq eT]
    (est : SpMat eT → SpMat eT → Nat) (out A B : SpMat eT) (hA : A.valid) (hB : B.valid)
    (hr : A.n_rows = B.n_rows) (hc : A.n_cols = B.n_cols)
    (hest : schur_nnz A B ≤ est A B) :
    ∃ R, spglue_schur.apply_noalias est out A B = (Status.ok, R) ∧
      holds_entries R A.n_rows A.n_cols (emitted A B A.n_nonzero) := by
  unfold spglue_schur.apply_noalias
  rw [← hr, ← hc, assert_same_size_ok]
  simp only
  by_cases hnz : A.n_nonzero ≠ 0 ∧ B.n_nonzero ≠ 0
  · rw [if_pos hnz]
    have hm : ∀ i ≤ A.n_nonzero, (emitted A B i).length ≤ est A B :=
      emitted_length_le hA hB (est A B) hest
    obtain ⟨s', hs', hinv⟩ := merge_loop_inv hA hB hr hc (est A B) hm
      (A.n_nonzero + B.n_nonzero) 0 0 _ (merge_init_inv hA hB out (est A B)) (by omega)
    rw [hs']
    simp only
    refine ⟨_, rfl, ?_⟩
    rw [hinv.count_eq]
    have hfix := fix_col_ptrs_spec (fun e : entry eT => e.2.1) (emitted A B A.n_nonzero)
      A.n_cols s'.out.col_ptrs hinv.col_ptrs_length hinv.tallies A.n_cols (le_refl _)
    apply rightsize_holds
    · exact hm _ (le_refl _)
    · exact hinv.n_rows_eq
    · exact hinv.n_cols_eq
    · exact hinv.n_nonzero_eq
    · exact hinv.entries
    · simp only; rw [hinv.n_cols_eq]; exact hfix.1
    · intro k hk
      simp only
      rw [hinv.n_cols_eq, hfix.2 k, if_pos hk]
    · exact hinv.values_length
    · exact hinv.row_indices_length
  · rw [if_neg hnz]
    refine ⟨_, rfl, ?_⟩
    rw [emitted_eq_nil hB (by omega)]
    exact zeros_holds out _ _

/-! ## Reading the result -/

theorem holds_values_ne_zero [Mul eT] [Zero eT] [DecidableEq eT] {A B R : SpMat eT}
    (hB : B.valid) (h : holds_entries R A.n_rows A.n_cols (emitted A B A.n_nonzero))
    (p : Nat) (hp : p < R.n_nonzero) : R.values.getD p 0 ≠ 0 := by
  rw [h.n_nonzero_eq] at hp
  have he := List.getElem?_eq_getElem hp
  rw [(h.entries p _ he).1]
  obtain ⟨a, -, hem⟩ := (mem_emitted A B _ _).mp (List.getElem_mem hp)
  obtain ⟨j, -, -, hv, heq⟩ := (emit_some_iff hB a _).mp hem
  rw [heq]
  exact hv

/-! ## The estimator modelled from the specification -/

theorem matched_succ (A B : SpMat eT) (i : Nat) :
    matched A B (i + 1) =
      matched A B i ++ (if B.stored (A.row_indices.getD i 0) (A.col_of i) then [i] else []) := by
  unfold matched
  rw [List.range_succ, List.filter_append]
  congr 1
  by_cases h : B.stored (A.row_indices.getD i 0) (A.col_of i) = true
  · rw [if_pos h]; simp only [List.filter_cons, h, if_true, List.filter_nil]
  · rw [if_neg h]
    have h' := (Bool.not_eq_true _).mp h
    simp only [List.filter_cons, h', Bool.false_eq_true, if_false, List.filter_nil]

theorem stored_of_key_eq {A B : SpMat eT} (hA : A.valid) (hB : B.valid)
    (hr : A.n_rows = B.n_rows) (i j : Nat) (hi : i < A.n_nonzero) (hj : j < B.n_nonzero)
    (hk : A.key i = B.key j) : B.stored (A.row_indices.getD i 0) (A.col_of i) = true := by
  have hrc := (key_eq_iff hA hB hr i j hi hj).mp hk
  rw [hB.stored_iff]
  exact ⟨j, by rw [hrc.2]; exact hB.in_col_col_of j hj, hrc.1.symm⟩

theorem not_stored_of_key_ne {A B : SpMat eT} (hA : A.valid) (hB : B.valid)
    (hr : A.n_rows = B.n_rows) (i : Nat) (hi : i < A.n_nonzero)
    (hk : ∀ j < B.n_nonzero, A.key i ≠ B.key j) :
    ¬ (B.stored (A.row_indices.getD i 0) (A.col_of i) = true) := by
  intro hs
  obtain ⟨j, hin, hrow⟩ := (hB.stored_iff _ _).mp hs
  have hjlt := hB.in_col_lt hin
  exact hk j hjlt ((key_eq_iff hA hB hr i j hi hjlt).mpr ⟨hrow.symm, (hB.col_of_eq hin).symm⟩)

theorem count_loop_spec {A B : SpMat eT} (hA : A.valid) (hB : B.valid)
    (hr : A.n_rows = B.n_rows) (hc : A.n_cols = B.n_cols) :
    ∀ (fuel i j : Nat), i ≤ A.n_nonzero → j ≤ B.n_nonzero →
      (∀ i' < i, A.key i' < B.key j) → (∀ j' < j, B.key j' < A.key i) →
      (A.n_nonzero - i) + (B.n_nonzero - j) ≤ fuel →
      spglue_elem_helper.count_loop A B A.n_rows fuel (A.iter_at i) (B.iter_at j)
        (matched A B i).length = (matched A B A.n_nonzero).length := by
  intro fuel
  induction fuel with
  | zero =>
    intro i j hi hj _ _ hfuel
    have : i = A.n_nonzero := by omega
    subst this
    rfl
  | succ k ih =>
    intro i j hi hj hxb hyb hfuel
    have hx : (A.iter_at i).row A + (A.iter_at i).col * A.n_rows = A.key i := rfl
    have hy : (B.iter_at j).row B + (B.iter_at j).col * A.n_rows = B.key j := by rw [hr]; rfl
    unfold spglue_elem_helper.count_loop
    simp only [hx, hy, SpMat.iter_at_eq_end, ne_eq]
    by_cases hcond : ¬ i = A.n_nonzero ∨ ¬ j = B.n_nonzero
    · rw [if_pos hcond]
      by_cases hk : A.key i = B.key j
      · rw [if_pos hk]
        have hij : i < A.n_nonzero ∧ j < B.n_nonzero := by
          by_cases hi' : i = A.n_nonzero
          · have h1 := hB.key_lt_size j (by omega)
            have h2 := A.size_le_key_end
            rw [← hi', hk, hr, hc] at h2
            omega
          · by_cases hj' : j = B.n_nonzero
            · have h1 := hA.key_lt_size i (by omega)
              have h2 := B.size_le_key_end
              rw [← hj', ← hk, ← hr, ← hc] at h2
              omega
            · omega
        obtain ⟨hi', hj'⟩ := hij
        have hst := stored_of_key_eq hA hB hr i j hi' hj' hk
        have hsucc := matched_succ A B i
        rw [if_pos hst] at hsucc
        have hlen : (matched A B (i + 1)).length = (matched A B i).length + 1 := by
          rw [hsucc, List.length_append]; rfl
        rw [hA.next_iter_at i hi', hB.next_iter_at j hj', ← hlen]
        apply ih (i + 1) (j + 1) hi' hj' _ _ (by omega)
        · intro i' hlt
          have h1 := hA.key_le_of_le i' i (by omega) (by omega)
          have h2 := hB.key_strict_mono j (j + 1) (by omega) (by omega)
          omega
        · intro j' hlt
          have h1 := hB.key_le_of_le j' j (by omega) (by omega)
          have h2 := hA.key_strict_mono i (i + 1) (by omega) (by omega)
          omega
      · rw [if_neg hk]
        by_cases hlt : A.key i < B.key j
        · rw [if_pos hlt]
          have hi' : i < A.n_nonzero := by
            by_contra hi'
            have hi'' : i = A.n_nonzero := by omega
            have h1 := hB.key_lt_size j (by omega)
            have h2 := A.size_le_key_end
            rw [← hi'', hr, hc] at h2
            omega
          have hst := not_stored_of_key_ne hA hB hr i hi' (by
            intro j' hj' heq
            by_cases hjj : j' < j
            · have := hyb j' hjj; omega
            · have := hB.key_le_of_le j j' (by omega) (by omega); omega)
          have hsucc := matched_succ A B i
          rw [if_neg hst, List.append_nil] at hsucc
          rw [hA.next_iter_at i hi', ← hsucc]
          apply ih (i + 1) j hi' hj _ _ (by omega)
          · intro i' hi''
            have := hA.key_le_of_le i' i (by omega) (by omega); omega
          · intro j' hj''
            have := hyb j' hj''
            have := hA.key_strict_mono i (i + 1) (by omega) (by omega); omega
        · rw [if_neg hlt]
          have hj' : j < B.n_nonzero := by
            by_contra hj'
            have hj'' : j = B.n_nonzero := by omega
            have h1 := hA.key_lt_size i (by omega)
            have h2 := B.size_le_key_end
            rw [← hj'', ← hr, ← hc] at h2
            omega
          rw [hB.next_iter_at j hj']
          apply ih i (j + 1) hi hj' _ _ (by omega)
          · intro i' hi''
            have := hxb i' hi''
            have := hB.key_strict_mono j (j + 1) (by omega) (by omega); omega
          · intro j' hj''
            have := hB.key_le_of_le j' j (by omega) (by omega); omega
    · rw [if_neg hcond]
      have : i = A.n_nonzero := by omega
      subst this
      rfl

theorem matched_length_eq_common {A B : SpMat eT} (hA : A.valid) :
    (matched A B A.n_nonzero).length = common_positions A B := by
  unfold common_positions
  rw [← List.length_map (matched A B A.n_nonzero)
    (fun a => (A.row_indices.getD a 0, A.col_of a))]
  apply List.Perm.length_eq
  have hnd : ((matched A B A.n_nonzero).map
      (fun a => (A.row_indices.getD a 0, A.col_of a))).Nodup := by
    apply List.Nodup.map_on
    · intro a ha b hb heq
      have ha' : a < A.n_nonzero := List.mem_range.mp (List.mem_filter.mp ha).1
      have hb' : b < A.n_nonzero := List.mem_range.mp (List.mem_filter.mp hb).1
      simp only [Prod.mk.injEq] at heq
      have hina := hA.in_col_col_of a ha'
      have hinb := hA.in_col_col_of b hb'
      rw [heq.2] at hina
      exact hA.row_inj hina hinb heq.1
    · exact List.Nodup.filter _ (List.nodup_range _)
  rw [List.perm_ext_iff_of_nodup hnd (List.Nodup.filter _ A.positions_nodup)]
  rintro ⟨r, c⟩
  rw [List.mem_filter, List.mem_map]
  simp only [Bool.and_eq_true]
  constructor
  · rintro ⟨a, ha, heq⟩
    have ha' : a < A.n_nonzero := List.mem_range.mp (List.mem_filter.mp ha).1
    have hst := (List.mem_filter.mp ha).2
    simp only [Prod.mk.injEq] at heq
    obtain ⟨h1, h2⟩ := heq
    subst h1 h2
    exact ⟨(A.mem_positions _ _).mpr ⟨hA.row_lt a ha', (hA.in_col_col_of a ha').1⟩,
      (hA.stored_iff _ _).mpr ⟨a, hA.in_col_col_of a ha', rfl⟩, hst⟩
  · rintro ⟨-, hsA, hsB⟩
    obtain ⟨i, hi, hri⟩ := (hA.stored_iff _ _).mp hsA
    have hcol := hA.col_of_eq hi
    refine ⟨i, ?_, by rw [hri, hcol]⟩
    unfold matched
    rw [List.mem_filter, List.mem_range]
    exact ⟨hA.in_col_lt hi, by rw [hri, hcol]; exact hsB⟩

/-- On valid same-shaped inputs the modelled estimator returns the number of positions
stored in both inputs, so it meets its contract: it is at least the number of nonzero
results. -/
theorem max_n_nonzero_schur_eq_common {A B : SpMat eT} (hA : A.valid) (hB : B.valid)
    (hr : A.n_rows = B.n_rows) (hc : A.n_cols = B.n_cols) :
    spglue_elem_helper.max_n_nonzero_schur A B = common_positions A B := by
  unfold spglue_elem_helper.max_n_nonzero_schur
  rw [hA.begin_eq, hB.begin_eq, ← matched_length_eq_common hA]
  exact count_loop_spec hA hB hr hc _ 0 0 (Nat.zero_le _) (Nat.zero_le _)
    (fun _ h => absurd h (Nat.not_lt_zero _)) (fun _ h => absurd h (Nat.not_lt_zero _))
    (by omega)

theorem schur_nnz_le_max_n_nonzero_schur [Mul eT] [Zero eT] [DecidableEq eT] {A B : SpMat eT}
    (hA : A.valid) (hB : B.valid) (hr : A.n_rows = B.n_rows) (hc : A.n_cols = B.n_cols) :
    schur_nnz A B ≤ spglue_elem_helper.max_n_nonzero_schur A B := by
  rw [max_n_nonzero_schur_eq_common hA hB hr hc]
  exact schur_nnz_le_common A B

/-! ## The contract of `apply_noalias` and `apply` -/

/-- C2: for valid same-shaped inputs, whatever their stored values (explicit zeros, values
whose product is zero in the element type), none of the first `n_nonzero` entries of the
`values` array of the result is zero. -/
theorem apply_noalias_no_explicit_zero [Mul eT] [Zero eT] [DecidableEq eT]
    (est : SpMat eT → SpMat eT → Nat) (out A B : SpMat eT) (hA : A.valid) (hB : B.valid)
    (hr : A.n_rows = B.n_rows) (hc : A.n_cols = B.n_cols)
    (hest : schur_nnz A B ≤ est A B) :
    (spglue_schur.apply_noalias est out A B).1 = Status.ok ∧
    ∀ p < (spglue_schur.apply_noalias est out A B).2.n_nonzero,
      (spglue_schur.apply_noalias est out A B).2.values.getD p 0 ≠ 0 := by
  obtain ⟨R, hR, hh⟩ := apply_noalias_holds est out A B hA hB hr hc hest
  rw [hR]
  exact ⟨rfl, fun p hp => holds_values_ne_zero hB hh p hp⟩

/-- C2 on integers modulo 4: of the three common positions of `exZ` with itself, `2 * 2 = 0`
and the explicit zero are dropped and only `3 * 3 = 1` is stored. -/
theorem apply_noalias_no_explicit_zero_witness :
    (exZ.valid ∧ schur_nnz exZ exZ ≤ spglue_elem_helper.max_n_nonzero_schur exZ exZ) ∧
    (spglue_schur.apply_noalias spglue_elem_helper.max_n_nonzero_schur SpMat.empty exZ exZ).2.values
      = [1, 0] ∧
    ((spglue_schur.apply_noalias spglue_elem_helper.max_n_nonzero_schur SpMat.empty exZ exZ).1
        = Status.ok ∧
      ∀ p < (spglue_schur.apply_noalias spglue_elem_helper.max_n_nonzero_schur SpMat.empty
          exZ exZ).2.n_nonzero,
        (spglue_schur.apply_noalias spglue_elem_helper.max_n_nonzero_schur SpMat.empty
          exZ exZ).2.values.getD p 0 ≠ 0) :=
  ⟨by decide, by decide,
    apply_noalias_no_explicit_zero spglue_elem_helper.max_n_nonzero_schur SpMat.empty exZ exZ
      (by decide) (by decide) rfl rfl (by decide)⟩

/-- C3: `apply_noalias` and `apply` report the "element-wise multiplication" size mismatch
exactly when the two inputs differ in row count or in column count, and then the
destination `out` is returned as it was: nothing is reserved or written. -/
theorem size_mismatch_iff [Mul eT] [Zero eT] [DecidableEq eT]
    (est : SpMat eT → SpMat eT → Nat) (out A B : SpMat eT) (a b : spglue_schur.operand eT) :
    ((spglue_schur.apply_noalias est out A B).1 =
        Status.size_mismatch "element-wise multiplication" ↔
      (A.n_rows ≠ B.n_rows ∨ A.n_cols ≠ B.n_cols)) ∧
    ((A.n_rows ≠ B.n_rows ∨ A.n_cols ≠ B.n_cols) →
      spglue_schur.apply_noalias est out A B =
        (Status.size_mismatch "element-wise multiplication", out)) ∧
    ((spglue_schur.apply est out a b).1 =
        Status.size_mismatch "element-wise multiplication" ↔
      ((a.get out).n_rows ≠ (b.get out).n_rows ∨ (a.get out).n_cols ≠ (b.get out).n_cols)) ∧
    (((a.get out).n_rows ≠ (b.get out).n_rows ∨ (a.get out).n_cols ≠ (b.get out).n_cols) →
      spglue_schur.apply est out a b =
        (Status.size_mismatch "element-wise multiplication", out)) := by
  have key : ∀ (o P Q : SpMat eT),
      ((P.n_rows ≠ Q.n_rows ∨ P.n_cols ≠ Q.n_cols) →
        spglue_schur.apply_noalias est o P Q =
          (Status.size_mismatch "element-wise multiplication", o)) ∧
      (¬ (P.n_rows ≠ Q.n_rows ∨ P.n_cols ≠ Q.n_cols) →
        (spglue_schur.apply_noalias est o P Q).1 = Status.ok ∨
        (spglue_schur.apply_noalias est o P Q).1 = Status.no_termination) := by
    intro o P Q
    constructor
    · intro h
      unfold spglue_schur.apply_noalias arma_debug_assert_same_size
      rw [if_pos h]
    · intro h
      unfold spglue_schur.apply_noalias arma_debug_assert_same_size
      rw [if_neg h]
      simp only
      split
      · split
        · right; rfl
        · left; rfl
      · left; rfl
  have iff_of : ∀ (o P Q : SpMat eT),
      (spglue_schur.apply_noalias est o P Q).1 =
          Status.size_mismatch "element-wise multiplication" ↔
        (P.n_rows ≠ Q.n_rows ∨ P.n_cols ≠ Q.n_cols) := by
    intro o P Q
    constructor
    · intro h
      by_contra hn
      rcases (key o P Q).2 hn with h1 | h1 <;> rw [h1] at h <;> cases h
    · intro h
      rw [(key o P Q).1 h]
  refine ⟨iff_of out A B, (key out A B).1, ?_, ?_⟩
  · unfold spglue_schur.apply
    simp only
    split
    · exact iff_of out _ _
    · rw [← iff_of SpMat.empty (a.get out) (b.get out)]
      split
      · rename_i heq
        rw [heq]
      · rename_i heq
        rw [heq]
  · intro h
    unfold spglue_schur.apply
    simp only
    split
    · exact (key out _ _).1 h
    · rw [(key SpMat.empty _ _).1 h]

/-- C3 at a `3 x 3` and a `2 x 3` operand: the error is raised and `out` is untouched, also
when the destination is one of the operands. -/
theorem size_mismatch_iff_witness :
    spglue_schur.apply_noalias spglue_elem_helper.max_n_nonzero_schur exB exA exC =
      (Status.size_mismatch "element-wise multiplication", exB) ∧
    spglue_schur.apply spglue_elem_helper.max_n_nonzero_schur exA
      spglue_schur.operand.dest (spglue_schur.operand.mat exC) =
      (Status.size_mismatch "element-wise multiplication", exA) :=
  ⟨(size_mismatch_iff spglue_elem_helper.max_n_nonzero_schur exB exA exC
      spglue_schur.operand.dest spglue_schur.operand.dest).2.1 (by decide),
   (size_mismatch_iff spglue_elem_helper.max_n_nonzero_schur exA exA exA
      spglue_schur.operand.dest (spglue_schur.operand.mat exC)).2.2.2 (by decide)⟩

/-- C4: when the inputs have the same shape and one of them has no stored entry,
`apply_noalias` leaves in `out` the all-zero matrix of that shape: `n_nonzero = 0` and every
entry of `col_ptrs` is `0`. The result does not depend on the estimator, and it is reached
for every content of the inputs: neither the estimator nor the merge loop takes part. -/
theorem apply_noalias_zero_fast_path [Mul eT] [Zero eT] [DecidableEq eT]
    (est : SpMat eT → SpMat eT → Nat) (out A B : SpMat eT)
    (hr : A.n_rows = B.n_rows) (hc : A.n_cols = B.n_cols)
    (h0 : A.n_nonzero = 0 ∨ B.n_nonzero = 0) :
    spglue_schur.apply_noalias est out A B = (Status.ok, out.zeros A.n_rows A.n_cols) ∧
    (spglue_schur.apply_noalias est out A B).2.n_rows = A.n_rows ∧
    (spglue_schur.apply_noalias est out A B).2.n_cols = A.n_cols ∧
    (spglue_schur.apply_noalias est out A B).2.n_nonzero = 0 ∧
    (spglue_schur.apply_noalias est out A B).2.col_ptrs = List.replicate (A.n_cols + 1) 0 ∧
    ∀ est' : SpMat eT → SpMat eT → Nat,
      spglue_schur.apply_noalias est' out A B = spglue_schur.apply_noalias est out A B := by
  have h : ∀ e : SpMat eT → SpMat eT → Nat,
      spglue_schur.apply_noalias e out A B = (Status.ok, out.zeros A.n_rows A.n_cols) := by
    intro e
    unfold spglue_schur.apply_noalias
    rw [← hr, ← hc, assert_same_size_ok]
    simp only
    rw [if_neg (by omega)]
  rw [h est]
  exact ⟨rfl, rfl, rfl, rfl, rfl, fun e => h e⟩

/-- C4 with an empty second operand and a destination that held `exB` before. -/
theorem apply_noalias_zero_fast_path_witness :
    (exA.n_rows = exEmpty.n_rows ∧ exA.n_cols = exEmpty.n_cols ∧
      (exA.n_nonzero = 0 ∨ exEmpty.n_nonzero = 0)) ∧
    spglue_schur.apply_noalias spglue_elem_helper.max_n_nonzero_schur exB exA exEmpty =
      (Status.ok, { n_rows := 3, n_cols := 3, n_nonzero := 0, values := [0],
                    row_indices := [0], col_ptrs := [0, 0, 0, 0] }) :=
  ⟨by decide,
    (apply_noalias_zero_fast_path spglue_elem_helper.max_n_nonzero_schur exB exA exEmpty
      rfl rfl (Or.inr rfl)).1⟩

/-- C5: when the destination is one of the operands, `apply` (scratch matrix, then
`steal_mem`) ends normally and leaves the destination equal, field by field, to what
`apply_noalias` leaves in a fresh matrix for the same inputs. -/
theorem apply_alias_eq_noalias [Mul eT] [Zero eT] [DecidableEq eT]
    (est : SpMat eT → SpMat eT → Nat) (out : SpMat eT) (a b : spglue_schur.operand eT)
    (halias : a.is_alias = true ∨ b.is_alias = true)
    (hA : (a.get out).valid) (hB : (b.get out).valid)
    (hr : (a.get out).n_rows = (b.get out).n_rows)
    (hc : (a.get out).n_cols = (b.get out).n_cols)
    (hest : schur_nnz (a.get out) (b.get out) ≤ est (a.get out) (b.get out)) :
    (spglue_schur.apply est out a b).1 = Status.ok ∧
    spglue_schur.apply est out a b =
      spglue_schur.apply_noalias est SpMat.empty (a.get out) (b.get out) := by
  obtain ⟨R, hR, -⟩ := apply_noalias_holds est SpMat.empty _ _ hA hB hr hc hest
  have halias' : ¬ ((a.is_alias || b.is_alias) = false) := by
    rcases halias with h | h <;> simp [h]
  unfold spglue_schur.apply
  simp only
  rw [if_neg halias', hR]
  exact ⟨rfl, rfl⟩

/-- C5 for `A = A % B` on the concrete scenario. -/
theorem apply_alias_eq_noalias_witness :
    spglue_schur.apply spglue_elem_helper.max_n_nonzero_schur exA
      spglue_schur.operand.dest (spglue_schur.operand.mat exB) =
    spglue_schur.apply_noalias spglue_elem_helper.max_n_nonzero_schur SpMat.empty exA exB :=
  (apply_alias_eq_noalias spglue_elem_helper.max_n_nonzero_schur exA
    spglue_schur.operand.dest (spglue_schur.operand.mat exB) (Or.inl rfl)
    (by decide) (by decide) (by decide) (by decide) (by decide)).2

/-- C6: after a run of `apply_noalias` on valid same-shaped inputs (merge path with any
rightsizing outcome, or zero fast path), which ends normally, `col_ptrs` has `n_cols + 1`
entries, is non-decreasing, and its last entry `col_ptrs[n_cols]` is `n_nonzero`. -/
theorem apply_noalias_col_ptrs_invariant [Mul eT] [Zero eT] [DecidableEq eT]
    (est : SpMat eT → SpMat eT → Nat) (out A B : SpMat eT) (hA : A.valid) (hB : B.valid)
    (hr : A.n_rows = B.n_rows) (hc : A.n_cols = B.n_cols)
    (hest : schur_nnz A B ≤ est A B) :
    (spglue_schur.apply_noalias est out A B).1 = Status.ok ∧
    (spglue_schur.apply_noalias est out A B).2.col_ptrs.length =
      (spglue_schur.apply_noalias est out A B).2.n_cols + 1 ∧
    (∀ c < (spglue_schur.apply_noalias est out A B).2.n_cols,
      (spglue_schur.apply_noalias est out A B).2.col_ptrs.getD c 0 ≤
        (spglue_schur.apply_noalias est out A B).2.col_ptrs.getD (c + 1) 0) ∧
    (spglue_schur.apply_noalias est out A B).2.col_ptrs.getD
        (spglue_schur.apply_noalias est out A B).2.n_cols 0 =
      (spglue_schur.apply_noalias est out A B).2.n_nonzero := by
  obtain ⟨R, hR, hh⟩ := apply_noalias_holds est out A B hA hB hr hc hest
  rw [hR]
  have hv := hh.valid (emitted_sorted hA hB _ (le_refl _))
  exact ⟨rfl, hv.1, hv.2.2.1, hv.2.2.2.1⟩

/-- C6 on the three rightsizing outcomes (count equal to the bound, reallocation, in-place
shrink) and on the zero fast path. -/
theorem apply_noalias_col_ptrs_invariant_witness :
    (spglue_schur.apply_noalias (fun _ _ => 3) SpMat.empty exA exA).2.col_ptrs = [0, 2, 2, 3] ∧
    (spglue_schur.apply_noalias (fun _ _ => 3) SpMat.empty exA exB).2.col_ptrs = [0, 1, 1, 1] ∧
    (spglue_schur.apply_noalias (fun _ _ => 4) SpMat.empty exA exA).2.col_ptrs.getD
        (spglue_schur.apply_noalias (fun _ _ => 4) SpMat.empty exA exA).2.n_cols 0 =
      (spglue_schur.apply_noalias (fun _ _ => 4) SpMat.empty exA exA).2.n_nonzero ∧
    (spglue_schur.apply_noalias (fun _ _ => 0) SpMat.empty exA exEmpty).2.col_ptrs.getD
        (spglue_schur.apply_noalias (fun _ _ => 0) SpMat.empty exA exEmpty).2.n_cols 0 =
      (spglue_schur.apply_noalias (fun _ _ => 0) SpMat.empty exA exEmpty).2.n_nonzero :=
  ⟨by decide, by decide,
    (apply_noalias_col_ptrs_invariant (fun _ _ => 4) SpMat.empty exA exA
      (by decide) (by decide) rfl rfl (by decide)).2.2.2,
    (apply_noalias_col_ptrs_invariant (fun _ _ => 0) SpMat.empty exA exEmpty
      (by decide) (by decide) rfl rfl (by decide)).2.2.2⟩

/-- C7: for valid same-shaped inputs the result of `apply_noalias` is a valid CSC matrix:
every stored row index is below `n_rows`, and inside each column the stored row indices
are strictly ascending, so no two stored entries share a position. -/
theorem apply_noalias_valid [Mul eT] [Zero eT] [DecidableEq eT]
    (est : SpMat eT → SpMat eT → Nat) (out A B : SpMat eT) (hA : A.valid) (hB : B.valid)
    (hr : A.n_rows = B.n_rows) (hc : A.n_cols = B.n_cols)
    (hest : schur_nnz A B ≤ est A B) :
    (spglue_schur.apply_noalias est out A B).1 = Status.ok ∧
    (spglue_schur.apply_noalias est out A B).2.valid ∧
    (∀ p < (spglue_schur.apply_noalias est out A B).2.n_nonzero,
      (spglue_schur.apply_noalias est out A B).2.row_indices.getD p 0 <
        (spglue_schur.apply_noalias est out A B).2.n_rows) ∧
    (∀ c < (spglue_schur.apply_noalias est out A B).2.n_cols, ∀ p q,
      (spglue_schur.apply_noalias est out A B).2.col_ptrs.getD c 0 ≤ p → p < q →
      q < (spglue_schur.apply_noalias est out A B).2.col_ptrs.getD (c + 1) 0 →
      (spglue_schur.apply_noalias est out A B).2.row_indices.getD p 0 <
        (spglue_schur.apply_noalias est out A B).2.row_indices.getD q 0) := by
  obtain ⟨R, hR, hh⟩ := apply_noalias_holds est out A B hA hB hr hc hest
  rw [hR]
  have hv := hh.valid (emitted_sorted hA hB _ (le_refl _))
  refine ⟨rfl, hv, hv.row_lt, ?_⟩
  intro c hc' p q hlo hpq hhi
  simp only at hc' hlo hhi ⊢
  exact hv.rows_ascending (c := c) ⟨hc', hlo, by omega⟩ q ⟨hc', by omega, hhi⟩ hpq

/-- C7 on the product of `exA` with itself, whose first column holds two entries. -/
theorem apply_noalias_valid_witness :
    (exA.valid ∧ schur_nnz exA exA ≤ 3) ∧
    (spglue_schur.apply_noalias (fun _ _ => 3) SpMat.empty exA exA).2.row_indices.take 3
      = [0, 1, 2] ∧
    (spglue_schur.apply_noalias (fun _ _ => 3) SpMat.empty exA exA).2.valid :=
  ⟨by decide, by decide,
    (apply_noalias_valid (fun _ _ => 3) SpMat.empty exA exA
      (by decide) (by decide) rfl rfl (by decide)).2.1⟩

/-- C8: for valid same-shaped inputs, `n_nonzero` of the result of `apply_noalias` is the
number of positions stored in both inputs whose two stored values have a nonzero product,
whatever the estimate and hence whatever rightsizing does. -/
theorem apply_noalias_n_nonzero [Mul eT] [Zero eT] [DecidableEq eT]
    (est : SpMat eT → SpMat eT → Nat) (out A B : SpMat eT) (hA : A.valid) (hB : B.valid)
    (hr : A.n_rows = B.n_rows) (hc : A.n_cols = B.n_cols)
    (hest : schur_nnz A B ≤ est A B) :
    (spglue_schur.apply_noalias est out A B).1 = Status.ok ∧
    (spglue_schur.apply_noalias est out A B).2.n_nonzero = schur_nnz A B := by
  obtain ⟨R, hR, hh⟩ := apply_noalias_holds est out A B hA hB hr hc hest
  rw [hR]
  exact ⟨rfl, by rw [← emitted_length_eq_schur_nnz hA hB]; exact hh.n_nonzero_eq⟩

/-- C8 on integers modulo 4, where two of the three common positions have a zero product,
with the count equal to the bound (`1`), with reallocation (bound `3`), and, for `exA` with
itself, with the in-place shrink (count `3`, bound `4`). -/
theorem apply_noalias_n_nonzero_witness :
    (schur_nnz exZ exZ = 1 ∧ common_positions exZ exZ = 3 ∧ schur_nnz exA exA = 3) ∧
    (spglue_schur.apply_noalias (fun _ _ => 1) SpMat.empty exZ exZ).2.n_nonzero
      = schur_nnz exZ exZ ∧
    (spglue_schur.apply_noalias (fun _ _ => 3) SpMat.empty exZ exZ).2.n_nonzero
      = schur_nnz exZ exZ ∧
    (spglue_schur.apply_noalias (fun _ _ => 4) SpMat.empty exA exA).2.n_nonzero
      = schur_nnz exA exA :=
  ⟨by decide,
    (apply_noalias_n_nonzero (fun _ _ => 1) SpMat.empty exZ exZ
      (by decide) (by decide) rfl rfl (by decide)).2,
    (apply_noalias_n_nonzero (fun _ _ => 3) SpMat.empty exZ exZ
      (by decide) (by decide) rfl rfl (by decide)).2,
    (apply_noalias_n_nonzero (fun _ _ => 4) SpMat.empty exA exA
      (by decide) (by decide) rfl rfl (by decide)).2⟩

/-- C9: on valid same-shaped inputs, with storage reserved for `max_n_nonzero` entries where
`max_n_nonzero` is at least the number of common positions, the running count never exceeds
`max_n_nonzero` after any number of iterations, and whenever the loop body is about to
store an entry (condition true, equal indices, nonzero product) the slot `count` it writes
is below `max_n_nonzero`, inside `values` and `row_indices`, and the tally `col + 1` it
increments is at most `n_cols`, inside `col_ptrs`. -/
theorem merge_loop_writes_in_bounds [Mul eT] [Zero eT] [DecidableEq eT]
    (out A B : SpMat eT) (max_n_nonzero : Nat) (hA : A.valid) (hB : B.valid)
    (hr : A.n_rows = B.n_rows) (hc : A.n_cols = B.n_cols)
    (hmax : common_positions A B ≤ max_n_nonzero) (k : Nat) (s : merge_state eT)
    (hs : s = merge_after A B A.n_rows k
      (merge_init A B (out.reserve A.n_rows A.n_cols max_n_nonzero))) :
    s.count ≤ max_n_nonzero ∧
    (merge_cond A B s = true →
      s.x_it.row A + s.x_it.col * A.n_rows = s.y_it.row B + s.y_it.col * A.n_rows →
      s.x_it.deref A * s.y_it.deref B ≠ 0 →
      s.count < max_n_nonzero ∧ s.count < s.out.values.length ∧
      s.count < s.out.row_indices.length ∧
      s.x_it.col + 1 ≤ A.n_cols ∧ s.x_it.col + 1 < s.out.col_ptrs.length) := by
  have hm : ∀ i ≤ A.n_nonzero, (emitted A B i).length ≤ max_n_nonzero :=
    emitted_length_le hA hB max_n_nonzero (le_trans (schur_nnz_le_common A B) hmax)
  obtain ⟨i, j, h⟩ := merge_after_inv hA hB hr hc max_n_nonzero hm k 0 0 _
    (merge_init_inv hA hB out max_n_nonzero)
  rw [← hs] at h
  refine ⟨by rw [h.count_eq]; exact hm i h.i_le, ?_⟩
  intro hcond hidx hval
  rw [h.x_index, h.y_index hr] at hidx
  obtain ⟨hi, hj⟩ := h.live_of_key_eq hA hB hr hc (h.cond_iff.mp hcond) hidx
  have hxd : s.x_it.deref A = A.values.getD i 0 := by rw [h.x_eq]; rfl
  have hyd : s.y_it.deref B = B.values.getD j 0 := by rw [h.y_eq]; rfl
  have hxc : s.x_it.col = A.col_of i := by
    rw [h.x_eq]; simp only [const_iterator.col, SpMat.iter_at, hi, if_true]
  rw [hxd, hyd] at hval
  have hem := emit_of_key_eq hA hB hr i j hi hj hidx
  rw [if_pos hval] at hem
  have hsucc := emitted_succ A B i
  rw [hem] at hsucc
  have hlen := hm (i + 1) hi
  rw [hsucc, List.length_append] at hlen
  simp only [Option.toList, List.length_singleton] at hlen
  have hcol := (hA.in_col_col_of i hi).1
  rw [h.count_eq, h.values_length, h.row_indices_length, h.col_ptrs_length, hxc]
  exact ⟨by omega, by omega, by omega, by omega, by omega⟩

/-- C9 at the first iteration of the concrete scenario with the exact bound `1`: the entry
`(0,0)=8` is about to be stored at slot `0 < 1`. -/
theorem merge_loop_writes_in_bounds_witness :
    (exA.valid ∧ exB.valid ∧ common_positions exA exB ≤ 1) ∧
    (merge_after exA exB exA.n_rows 0
      (merge_init exA exB ((SpMat.empty : SpMat Int).reserve exA.n_rows exA.n_cols 1))).count
      ≤ 1 :=
  ⟨by decide,
    (merge_loop_writes_in_bounds SpMat.empty exA exB 1 (by decide) (by decide) rfl rfl
      (by decide) 0 _ rfl).1⟩

/-- C10, as stated, fails: after three iterations on the concrete scenario the iterator of
`B` is exhausted while the iterator of `A` is live, and the next execution of the loop
body reads the row and the column of the exhausted iterator (lines 87-88). -/
theorem exhausted_iterator_read_counterexample :
    merge_cond exA exB (merge_after exA exB 3 3
      (merge_init exA exB ((SpMat.empty : SpMat Int).reserve 3 3 1))) = true ∧
    (merge_after exA exB 3 3
      (merge_init exA exB ((SpMat.empty : SpMat Int).reserve 3 3 1))).y_it = exB.«end» ∧
    (merge_after exA exB 3 3
      (merge_init exA exB ((SpMat.empty : SpMat Int).reserve 3 3 1))).x_it ≠ exA.«end» ∧
    access.row side.y ∈ merge_body_accesses exA exB 3 (merge_after exA exB 3 3
      (merge_init exA exB ((SpMat.empty : SpMat Int).reserve 3 3 1))) ∧
    access.col side.y ∈ merge_body_accesses exA exB 3 (merge_after exA exB 3 3
      (merge_init exA exB ((SpMat.empty : SpMat Int).reserve 3 3 1))) := by
  decide

/-- C10, amended: on valid same-shaped inputs (storage reserved for at least the number of
nonzero results), in every iteration of the merge loop in which
one input iterator is exhausted and the other is live, the value of the exhausted iterator
is not accessed; its row and its column are read, to form its linear index. -/
theorem exhausted_iterator_not_dereferenced [Mul eT] [Zero eT] [DecidableEq eT]
    (out A B : SpMat eT) (max_n_nonzero : Nat) (hA : A.valid) (hB : B.valid)
    (hr : A.n_rows = B.n_rows) (hc : A.n_cols = B.n_cols)
    (hmax : schur_nnz A B ≤ max_n_nonzero) (k : Nat) (s : merge_state eT)
    (hs : s = merge_after A B A.n_rows k
      (merge_init A B (out.reserve A.n_rows A.n_cols max_n_nonzero)))
    (hcond : merge_cond A B s = true) :
    (s.x_it = A.«end» → s.y_it ≠ B.«end» →
      access.deref side.x ∉ merge_body_accesses A B A.n_rows s ∧
      access.row side.x ∈ merge_body_accesses A B A.n_rows s ∧
      access.col side.x ∈ merge_body_accesses A B A.n_rows s) ∧
    (s.y_it = B.«end» → s.x_it ≠ A.«end» →
      access.deref side.y ∉ merge_body_accesses A B A.n_rows s ∧
      access.row side.y ∈ merge_body_accesses A B A.n_rows s ∧
      access.col side.y ∈ merge_body_accesses A B A.n_rows s) := by
  have hm : ∀ i ≤ A.n_nonzero, (emitted A B i).length ≤ max_n_nonzero :=
    emitted_length_le hA hB max_n_nonzero hmax
  obtain ⟨i, j, h⟩ := merge_after_inv hA hB hr hc max_n_nonzero hm k 0 0 _
    (merge_init_inv hA hB out max_n_nonzero)
  rw [← hs] at h
  have hi := h.i_le
  have hj := h.j_le
  have hcond' := h.cond_iff.mp hcond
  unfold merge_body_accesses
  simp only [h.x_index, h.y_index hr]
  constructor
  · intro hx hy
    rw [h.x_eq, SpMat.iter_at_eq_end] at hx
    have h1 := hB.key_lt_size j (by omega)
    have h2 := A.size_le_key_end
    rw [← hx, hr, hc] at h2
    rw [if_neg (by omega), if_neg (by omega)]
    simp
  · intro hy hx
    rw [h.y_eq, SpMat.iter_at_eq_end] at hy
    have h1 := hA.key_lt_size i (by omega)
    have h2 := B.size_le_key_end
    rw [← hy, ← hr, ← hc] at h2
    rw [if_neg (by omega), if_pos (by omega)]
    simp

/-- C10, amended, at the fourth iteration of the concrete scenario, where the iterator of
`B` is exhausted and the iterator of `A` is live. -/
theorem exhausted_iterator_not_dereferenced_witness :
    access.deref side.y ∉ merge_body_accesses exA exB exA.n_rows (merge_after exA exB exA.n_rows 3
      (merge_init exA exB ((SpMat.empty : SpMat Int).reserve exA.n_rows exA.n_cols 1))) :=
  ((exhausted_iterator_not_dereferenced SpMat.empty exA exB 1 (by decide) (by decide) rfl rfl
    (by decide) 3 _ rfl (by decide)).2 (by decide) (by decide)).1

/-! ## The iterators do not depend on the destination -/

theorem merge_body_x_it [Mul eT] [Zero eT] [DecidableEq eT] (A B : SpMat eT) (n : Nat)
    (s : merge_state eT) :
    (merge_body A B n s).x_it =
      if s.x_it.row A + s.x_it.col * n ≤ s.y_it.row B + s.y_it.col * n then s.x_it.next A
      else s.x_it := by
  unfold merge_body
  simp only
  split_ifs <;> first | rfl | omega

theorem merge_body_y_it [Mul eT] [Zero eT] [DecidableEq eT] (A B : SpMat eT) (n : Nat)
    (s : merge_state eT) :
    (merge_body A B n s).y_it =
      if s.y_it.row B + s.y_it.col * n ≤ s.x_it.row A + s.x_it.col * n then s.y_it.next B
      else s.y_it := by
  unfold merge_body
  simp only
  split_ifs <;> first | rfl | omega

theorem merge_cond_congr (A B : SpMat eT) (s t : merge_state eT) (hx : s.x_it = t.x_it)
    (hy : s.y_it = t.y_it) : merge_cond A B s = merge_cond A B t := by
  unfold merge_cond
  rw [hx, hy]

theorem merge_body_iters_congr [Mul eT] [Zero eT] [DecidableEq eT] (A B : SpMat eT) (n : Nat)
    (s t : merge_state eT) (hx : s.x_it = t.x_it) (hy : s.y_it = t.y_it) :
    (merge_body A B n s).x_it = (merge_body A B n t).x_it ∧
    (merge_body A B n s).y_it = (merge_body A B n t).y_it := by
  rw [merge_body_x_it, merge_body_x_it, merge_body_y_it, merge_body_y_it, hx, hy]
  exact ⟨rfl, rfl⟩

theorem merge_after_iters_congr [Mul eT] [Zero eT] [DecidableEq eT] (A B : SpMat eT) (n : Nat) :
    ∀ (k : Nat) (s t : merge_state eT), s.x_it = t.x_it → s.y_it = t.y_it →
      (merge_after A B n k s).x_it = (merge_after A B n k t).x_it ∧
      (merge_after A B n k s).y_it = (merge_after A B n k t).y_it := by
  intro k
  induction k with
  | zero => intro s t hx hy; exact ⟨hx, hy⟩
  | succ k ih =>
    intro s t hx hy
    have hc := merge_cond_congr A B s t hx hy
    simp only [merge_after]
    rw [← hc]
    by_cases h : merge_cond A B s = true
    · rw [if_pos h, if_pos h]
      obtain ⟨h1, h2⟩ := merge_body_iters_congr A B n s t hx hy
      exact ih _ _ h1 h2
    · rw [if_neg h, if_neg h]
      exact ⟨hx, hy⟩

theorem merge_loop_iters_congr [Mul eT] [Zero eT] [DecidableEq eT] (A B : SpMat eT) (n : Nat) :
    ∀ (fuel : Nat) (s t s' : merge_state eT), s.x_it = t.x_it → s.y_it = t.y_it →
      merge_loop A B n fuel s = some s' →
      ∃ t', merge_loop A B n fuel t = some t' ∧ s'.x_it = t'.x_it ∧ s'.y_it = t'.y_it := by
  intro fuel
  induction fuel with
  | zero =>
    intro s t s' hx hy hs
    have hc := merge_cond_congr A B s t hx hy
    simp only [merge_loop] at hs ⊢
    rw [← hc]
    by_cases h : merge_cond A B s = true
    · rw [if_pos h] at hs; cases hs
    · rw [if_neg h] at hs ⊢
      cases hs
      exact ⟨t, rfl, hx, hy⟩
  | succ k ih =>
    intro s t s' hx hy hs
    have hc := merge_cond_congr A B s t hx hy
    simp only [merge_loop] at hs ⊢
    rw [← hc]
    by_cases h : merge_cond A B s = true
    · rw [if_pos h] at hs ⊢
      obtain ⟨h1, h2⟩ := merge_body_iters_congr A B n s t hx hy
      exact ih _ _ s' h1 h2 hs
    · rw [if_neg h] at hs ⊢
      cases hs
      exact ⟨t, rfl, hx, hy⟩

theorem merge_inv.iters [Mul eT] [Zero eT] [DecidableEq eT] {A B : SpMat eT} {m i j : Nat}
    {s : merge_state eT} (h : merge_inv A B m i j s) : iters_at A B i j s :=
  ⟨h.i_le, h.j_le, h.x_eq, h.y_eq, h.x_behind, h.y_behind⟩

/-- On valid same-shaped inputs, whatever the destination holds, after any number of
iterations the iterators stand on offsets `i` and `j` of the two inputs. -/
theorem merge_after_iters_at [Mul eT] [Zero eT] [DecidableEq eT] {A B : SpMat eT}
    (hA : A.valid) (hB : B.valid) (hr : A.n_rows = B.n_rows) (hc : A.n_cols = B.n_cols)
    (out1 : SpMat eT) (k : Nat) :
    ∃ i j, iters_at A B i j (merge_after A B A.n_rows k (merge_init A B out1)) := by
  obtain ⟨i, j, h⟩ := merge_after_inv hA hB hr hc (schur_nnz A B)
    (emitted_length_le hA hB _ (le_refl _)) k 0 0 _ (merge_init_inv hA hB out1 (schur_nnz A B))
  obtain ⟨hx, hy⟩ := merge_after_iters_congr A B A.n_rows k
    (merge_init A B (out1.reserve A.n_rows A.n_cols (schur_nnz A B))) (merge_init A B out1)
    rfl rfl
  exact ⟨i, j, h.i_le, h.j_le, by rw [← hx]; exact h.x_eq, by rw [← hy]; exact h.y_eq,
    h.x_behind, h.y_behind⟩

/-- On valid same-shaped inputs, whatever the destination holds, the loop ends within
`nnz(A) + nnz(B)` iterations, with both iterators at their end sentinel. -/
theorem merge_loop_ends [Mul eT] [Zero eT] [DecidableEq eT] {A B : SpMat eT}
    (hA : A.valid) (hB : B.valid) (hr : A.n_rows = B.n_rows) (hc : A.n_cols = B.n_cols)
    (out1 : SpMat eT) :
    ∃ s, merge_loop A B A.n_rows (A.n_nonzero + B.n_nonzero) (merge_init A B out1) = some s ∧
      s.x_it = A.«end» ∧ s.y_it = B.«end» := by
  obtain ⟨s', hs', hinv⟩ := merge_loop_inv hA hB hr hc (schur_nnz A B)
    (emitted_length_le hA hB _ (le_refl _)) (A.n_nonzero + B.n_nonzero) 0 0 _
    (merge_init_inv hA hB out1 (schur_nnz A B)) (by omega)
  obtain ⟨t, ht, hx, hy⟩ := merge_loop_iters_congr A B A.n_rows _
    (merge_init A B (out1.reserve A.n_rows A.n_cols (schur_nnz A B))) (merge_init A B out1) s'
    rfl rfl hs'
  refine ⟨t, ht, ?_, ?_⟩
  · rw [← hx, hinv.x_eq, SpMat.iter_at_eq_end]
  · rw [← hy, hinv.y_eq, SpMat.iter_at_eq_end]

theorem iters_at.x_linear_index {A B : SpMat eT} {i j : Nat} {s : merge_state eT}
    (h : iters_at A B i j s) :
    linear_index A.n_rows (s.x_it.row A) s.x_it.col = A.key i := by
  rw [h.x_eq]; rfl

theorem iters_at.y_linear_index {A B : SpMat eT} {i j : Nat} {s : merge_state eT}
    (h : iters_at A B i j s) (hr : A.n_rows = B.n_rows) :
    linear_index A.n_rows (s.y_it.row B) s.y_it.col = B.key j := by
  rw [h.y_eq, hr]; rfl

theorem iters_at.x_live_iff {A B : SpMat eT} {i j : Nat} {s : merge_state eT}
    (h : iters_at A B i j s) : s.x_it ≠ A.«end» ↔ i < A.n_nonzero := by
  have := h.i_le
  rw [h.x_eq, ne_eq, SpMat.iter_at_eq_end]
  omega

theorem iters_at.y_live_iff {A B : SpMat eT} {i j : Nat} {s : merge_state eT}
    (h : iters_at A B i j s) : s.y_it ≠ B.«end» ↔ j < B.n_nonzero := by
  have := h.j_le
  rw [h.y_eq, ne_eq, SpMat.iter_at_eq_end]
  omega

/-- The linear index of an exhausted iterator is not below `n_cols * n_rows`, which is above
the linear index of every live entry: an exhausted iterator is never the one behind, and
never level with a live one. -/
theorem iters_at.live_of_index {A B : SpMat eT} {i j : Nat} {s : merge_state eT}
    (h : iters_at A B i j s) (hA : A.valid) (hB : B.valid) (hr : A.n_rows = B.n_rows)
    (hc : A.n_cols = B.n_cols) (hcond : merge_cond A B s = true) :
    (A.key i ≤ B.key j → i < A.n_nonzero) ∧ (B.key j ≤ A.key i → j < B.n_nonzero) := by
  have hi := h.i_le
  have hj := h.j_le
  have hcond' : i ≠ A.n_nonzero ∨ j ≠ B.n_nonzero := by
    unfold merge_cond at hcond
    rw [h.x_eq, h.y_eq] at hcond
    simpa only [Bool.or_eq_true, decide_eq_true_eq, ne_eq, SpMat.iter_at_eq_end] using hcond
  constructor
  · intro hk
    by_contra hi'
    have hi'' : i = A.n_nonzero := by omega
    have h1 := hB.key_lt_size j (by omega)
    have h2 := A.size_le_key_end
    rw [← hi'', hr, hc] at h2
    omega
  · intro hk
    by_contra hj'
    have hj'' : j = B.n_nonzero := by omega
    have h1 := hA.key_lt_size i (by omega)
    have h2 := B.size_le_key_end
    rw [← hj'', ← hr, ← hc] at h2
    omega

theorem next_internal_pos (it : const_iterator) (M : SpMat eT) :
    (it.next M).internal_pos = it.internal_pos + 1 := by
  unfold const_iterator.next
  simp only
  split <;> rfl

/-! ## The merge loop, iteration by iteration -/

/-- C11: on valid same-shaped inputs the merge loop terminates within `nnz(A) + nnz(B)`
iterations, whatever the destination holds. Every execution of the loop body advances at
least one iterator by one entry, and when the two linear indices differ it advances the
iterator with the smaller index and leaves the other where it is. -/
theorem merge_loop_terminates [Mul eT] [Zero eT] [DecidableEq eT] (out1 A B : SpMat eT)
    (hA : A.valid) (hB : B.valid) (hr : A.n_rows = B.n_rows) (hc : A.n_cols = B.n_cols) :
    (∃ s, merge_loop A B A.n_rows (A.n_nonzero + B.n_nonzero) (merge_init A B out1) = some s ∧
      merge_cond A B s = false) ∧
    (∀ s : merge_state eT,
      ((merge_body A B A.n_rows s).x_it.internal_pos = s.x_it.internal_pos + 1 ∨
        (merge_body A B A.n_rows s).y_it.internal_pos = s.y_it.internal_pos + 1) ∧
      (linear_index A.n_rows (s.x_it.row A) s.x_it.col <
          linear_index A.n_rows (s.y_it.row B) s.y_it.col →
        (merge_body A B A.n_rows s).x_it = s.x_it.next A ∧
        (merge_body A B A.n_rows s).y_it = s.y_it) ∧
      (linear_index A.n_rows (s.y_it.row B) s.y_it.col <
          linear_index A.n_rows (s.x_it.row A) s.x_it.col →
        (merge_body A B A.n_rows s).y_it = s.y_it.next B ∧
        (merge_body A B A.n_rows s).x_it = s.x_it)) := by
  constructor
  · obtain ⟨s, hs, hx, hy⟩ := merge_loop_ends hA hB hr hc out1
    refine ⟨s, hs, ?_⟩
    unfold merge_cond
    rw [hx, hy]
    simp
  · intro s
    rw [merge_body_x_it, merge_body_y_it]
    unfold linear_index
    refine ⟨?_, ?_, ?_⟩
    · by_cases h : s.x_it.row A + s.x_it.col * A.n_rows ≤ s.y_it.row B + s.y_it.col * A.n_rows
      · left; rw [if_pos h]; exact next_internal_pos _ _
      · right; rw [if_pos (by omega)]; exact next_internal_pos _ _
    · intro h
      rw [if_pos (by omega), if_neg (by omega)]
      exact ⟨rfl, rfl⟩
    · intro h
      rw [if_pos (by omega), if_neg (by omega)]
      exact ⟨rfl, rfl⟩

/-- C11 on the concrete scenario: the loop over 3 and 2 stored entries ends within 5
iterations. -/
theorem merge_loop_terminates_witness :
    ∃ s, merge_loop exA exB exA.n_rows (exA.n_nonzero + exB.n_nonzero)
        (merge_init exA exB SpMat.empty) = some s ∧ merge_cond exA exB s = false :=
  (merge_loop_terminates SpMat.empty exA exB (by decide) (by decide) rfl rfl).1

/-- C15: the linear index `row + col * n_rows` orders the positions with `row < n_rows` in
column-major order: one index is smaller exactly when its column is smaller, or the columns
are equal and its row is smaller; and two indices are equal exactly when the positions
are. -/
theorem linear_index_order (n_rows r1 c1 r2 c2 : Nat) (h1 : r1 < n_rows) (h2 : r2 < n_rows) :
    (linear_index n_rows r1 c1 < linear_index n_rows r2 c2 ↔
      c1 < c2 ∨ (c1 = c2 ∧ r1 < r2)) ∧
    (linear_index n_rows r1 c1 = linear_index n_rows r2 c2 ↔ r1 = r2 ∧ c1 = c2) := by
  unfold linear_index
  rcases Nat.lt_trichotomy c1 c2 with h | h | h
  · have := linear_index_lt_of_col_lt n_rows r1 c1 r2 c2 h1 h
    constructor
    · constructor
      · intro _; exact Or.inl h
      · intro _; exact this
    · constructor
      · intro he; omega
      · rintro ⟨-, he⟩; omega
  · subst h
    constructor
    · constructor
      · intro hlt; exact Or.inr ⟨rfl, by omega⟩
      · rintro (hlt | ⟨-, hlt⟩) <;> omega
    · constructor
      · intro he; exact ⟨by omega, rfl⟩
      · rintro ⟨he, -⟩; rw [he]
  · have := linear_index_lt_of_col_lt n_rows r2 c2 r1 c1 h2 h
    constructor
    · constructor
      · intro hlt; omega
      · rintro (hlt | ⟨he, -⟩) <;> omega
    · constructor
      · intro he; omega
      · rintro ⟨-, he⟩; omega

/-- C15 at positions `(2,0)` and `(0,1)` of a matrix with 3 rows: the indices are `2 < 3`. -/
theorem linear_index_order_witness :
    (2 < 3 ∧ 0 < 3) ∧ linear_index 3 2 0 = 2 ∧ linear_index 3 0 1 = 3 ∧
    (linear_index 3 2 0 < linear_index 3 0 1 ↔ 0 < 1 ∨ (0 = 1 ∧ 2 < 0)) :=
  ⟨by decide, by decide, by decide,
    (linear_index_order 3 2 0 0 1 (by decide) (by decide)).1⟩

/-- C16: when the two linear indices are equal, the loop body advances both iterators by
one entry, whether or not the product is zero; and when the product is zero it leaves the
count and the destination (`values`, `row_indices`, `col_ptrs` and the rest) as they
were. -/
theorem merge_body_equal_index [Mul eT] [Zero eT] [DecidableEq eT] (A B : SpMat eT) (n : Nat)
    (s : merge_state eT)
    (heq : linear_index n (s.x_it.row A) s.x_it.col =
      linear_index n (s.y_it.row B) s.y_it.col) :
    (merge_body A B n s).x_it = s.x_it.next A ∧
    (merge_body A B n s).y_it = s.y_it.next B ∧
    (merge_body A B n s).x_it.internal_pos = s.x_it.internal_pos + 1 ∧
    (merge_body A B n s).y_it.internal_pos = s.y_it.internal_pos + 1 ∧
    (s.x_it.deref A * s.y_it.deref B = 0 →
      (merge_body A B n s).count = s.count ∧ (merge_body A B n s).out = s.out) ∧
    (s.x_it.deref A * s.y_it.deref B ≠ 0 → (merge_body A B n s).count = s.count + 1) := by
  unfold linear_index at heq
  have hx : (merge_body A B n s).x_it = s.x_it.next A := by
    rw [merge_body_x_it, if_pos (by omega)]
  have hy : (merge_body A B n s).y_it = s.y_it.next B := by
    rw [merge_body_y_it, if_pos (by omega)]
  refine ⟨hx, hy, by rw [hx]; exact next_internal_pos _ _,
    by rw [hy]; exact next_internal_pos _ _, ?_, ?_⟩
  · intro hz
    unfold merge_body
    simp only
    rw [if_pos heq, if_neg (not_not.mpr hz)]
    exact ⟨rfl, rfl⟩
  · intro hz
    unfold merge_body
    simp only
    rw [if_pos heq, if_pos hz]

/-- C16 at the first iteration of `exZ` with itself over the integers modulo 4: both
iterators stand on `(0,0)` with value `2`, the product `2 * 2` is zero, both iterators move
on and the count and the destination stay as they were. -/
theorem merge_body_equal_index_witness :
    (linear_index 2 ((merge_init exZ exZ (SpMat.empty : SpMat (Fin 4))).x_it.row exZ)
        (merge_init exZ exZ (SpMat.empty : SpMat (Fin 4))).x_it.col =
      linear_index 2 ((merge_init exZ exZ (SpMat.empty : SpMat (Fin 4))).y_it.row exZ)
        (merge_init exZ exZ (SpMat.empty : SpMat (Fin 4))).y_it.col ∧
      (merge_init exZ exZ (SpMat.empty : SpMat (Fin 4))).x_it.deref exZ *
        (merge_init exZ exZ (SpMat.empty : SpMat (Fin 4))).y_it.deref exZ = 0) ∧
    ((merge_body exZ exZ 2 (merge_init exZ exZ SpMat.empty)).count = 0 ∧
      (merge_body exZ exZ 2 (merge_init exZ exZ SpMat.empty)).out = SpMat.empty ∧
      (merge_body exZ exZ 2 (merge_init exZ exZ SpMat.empty)).x_it.internal_pos = 1) :=
  ⟨by decide,
    ((merge_body_equal_index exZ exZ 2 (merge_init exZ exZ SpMat.empty) (by decide)).2.2.2.2.1
      (by decide)).1,
    ((merge_body_equal_index exZ exZ 2 (merge_init exZ exZ SpMat.empty) (by decide)).2.2.2.2.1
      (by decide)).2,
    (merge_body_equal_index exZ exZ 2 (merge_init exZ exZ SpMat.empty) (by decide)).2.2.1⟩

/-- C17: on valid same-shaped inputs, whatever the destination holds, in every iteration of
the merge loop an iterator whose value is dereferenced or which is incremented is live:
the equal-index branch is reached only when both iterators are live, and the
differing-index branch advances a live iterator. The reason is the end sentinel in column
`n_cols`: every live entry has a linear index below `n_rows * n_cols`, the linear index of
the sentinel is not below it, and it is `n_rows * n_cols` when the slot past the last entry
holds row `0`. -/
theorem merge_loop_touches_live_only [Mul eT] [Zero eT] [DecidableEq eT]
    (out1 A B : SpMat eT) (hA : A.valid) (hB : B.valid) (hr : A.n_rows = B.n_rows)
    (hc : A.n_cols = B.n_cols) (k : Nat) (s : merge_state eT)
    (hs : s = merge_after A B A.n_rows k (merge_init A B out1))
    (hcond : merge_cond A B s = true) :
    (access.deref side.x ∈ merge_body_accesses A B A.n_rows s → s.x_it ≠ A.«end») ∧
    (access.deref side.y ∈ merge_body_accesses A B A.n_rows s → s.y_it ≠ B.«end») ∧
    (access.incr side.x ∈ merge_body_accesses A B A.n_rows s → s.x_it ≠ A.«end») ∧
    (access.incr side.y ∈ merge_body_accesses A B A.n_rows s → s.y_it ≠ B.«end») ∧
    (linear_index A.n_rows (s.x_it.row A) s.x_it.col =
        linear_index A.n_rows (s.y_it.row B) s.y_it.col →
      s.x_it ≠ A.«end» ∧ s.y_it ≠ B.«end») ∧
    (linear_index A.n_rows (s.x_it.row A) s.x_it.col <
        linear_index A.n_rows (s.y_it.row B) s.y_it.col →
      s.x_it ≠ A.«end» ∧ (merge_body A B A.n_rows s).x_it = s.x_it.next A) ∧
    (linear_index A.n_rows (s.y_it.row B) s.y_it.col <
        linear_index A.n_rows (s.x_it.row A) s.x_it.col →
      s.y_it ≠ B.«end» ∧ (merge_body A B A.n_rows s).y_it = s.y_it.next B) ∧
    (∀ p < A.n_nonzero,
      linear_index A.n_rows (A.row_indices.getD p 0) (A.col_of p) < A.n_rows * A.n_cols) ∧
    A.n_rows * A.n_cols ≤ linear_index A.n_rows (A.«end».row A) A.«end».col ∧
    (A.row_indices.getD A.n_nonzero 0 = 0 →
      linear_index A.n_rows (A.«end».row A) A.«end».col = A.n_rows * A.n_cols) := by
  obtain ⟨i, j, h⟩ := merge_after_iters_at hA hB hr hc out1 k
  rw [← hs] at h
  have hx := h.x_linear_index
  have hy := h.y_linear_index hr
  obtain ⟨hlx, hly⟩ := h.live_of_index hA hB hr hc hcond
  have hxl := h.x_live_iff
  have hyl := h.y_live_iff
  have hacc : merge_body_accesses A B A.n_rows s =
      [access.row side.x, access.col side.x, access.row side.y, access.col side.y] ++
      (if A.key i = B.key j then
        [access.deref side.x, access.deref side.y, access.incr side.x, access.incr side.y]
      else if A.key i < B.key j then [access.incr side.x]
      else [access.incr side.y]) := by
    unfold merge_body_accesses
    unfold linear_index at hx hy
    simp only [hx, hy]
  rw [hacc, hx, hy]
  refine ⟨?_, ?_, ?_, ?_, ?_, ?_, ?_, ?_, ?_, ?_⟩
  · intro hm
    by_cases hk : A.key i = B.key j
    · exact hxl.mpr (hlx (by omega))
    · rw [if_neg hk] at hm
      by_cases hlt : A.key i < B.key j
      · rw [if_pos hlt] at hm; simp at hm
      · rw [if_neg hlt] at hm; simp at hm
  · intro hm
    by_cases hk : A.key i = B.key j
    · exact hyl.mpr (hly (by omega))
    · rw [if_neg hk] at hm
      by_cases hlt : A.key i < B.key j
      · rw [if_pos hlt] at hm; simp at hm
      · rw [if_neg hlt] at hm; simp at hm
  · intro hm
    by_cases hk : A.key i = B.key j
    · exact hxl.mpr (hlx (by omega))
    · rw [if_neg hk] at hm
      by_cases hlt : A.key i < B.key j
      · exact hxl.mpr (hlx (by omega))
      · rw [if_neg hlt] at hm; simp at hm
  · intro hm
    by_cases hk : A.key i = B.key j
    · exact hyl.mpr (hly (by omega))
    · rw [if_neg hk] at hm
      by_cases hlt : A.key i < B.key j
      · rw [if_pos hlt] at hm; simp at hm
      · exact hyl.mpr (hly (by omega))
  · intro hk
    exact ⟨hxl.mpr (hlx (by omega)), hyl.mpr (hly (by omega))⟩
  · intro hk
    refine ⟨hxl.mpr (hlx (by omega)), ?_⟩
    unfold linear_index at hx hy
    rw [merge_body_x_it, hx, hy, if_pos (by omega)]
  · intro hk
    refine ⟨hyl.mpr (hly (by omega)), ?_⟩
    unfold linear_index at hx hy
    rw [merge_body_y_it, hx, hy, if_pos (by omega)]
  · intro p hp
    have := hA.key_lt_size p hp
    rw [A.key_of_lt p hp] at this
    unfold linear_index
    rw [Nat.mul_comm A.n_rows A.n_cols]
    exact this
  · have := A.size_le_key_end
    rw [A.key_end] at this
    unfold linear_index
    rw [Nat.mul_comm A.n_rows A.n_cols]
    exact this
  · intro h0
    unfold linear_index const_iterator.row const_iterator.col SpMat.«end»
    simp only
    rw [h0, Nat.zero_add, Nat.mul_comm]

/-- C17 at the fourth iteration of the concrete scenario, where the iterator of `B` is
exhausted: the body increments an iterator, and it is the live iterator of `A`. -/
theorem merge_loop_touches_live_only_witness :
    (access.incr side.x ∈ merge_body_accesses exA exB exA.n_rows
        (merge_after exA exB exA.n_rows 3 (merge_init exA exB SpMat.empty)) ∧
      (merge_after exA exB exA.n_rows 3 (merge_init exA exB SpMat.empty)).y_it = exB.«end») ∧
    (merge_after exA exB exA.n_rows 3 (merge_init exA exB SpMat.empty)).x_it ≠ exA.«end» :=
  ⟨by decide,
    (merge_loop_touches_live_only SpMat.empty exA exB (by decide) (by decide) rfl rfl 3 _ rfl
      (by decide)).2.2.1 (by decide)⟩

/-! ## What the loop leaves untouched -/

theorem list_ext_getD {α : Type} (l1 l2 : List α) (d : α) (hlen : l1.length = l2.length)
    (h : ∀ p, l1.getD p d = l2.getD p d) : l1 = l2 := by
  apply List.ext_getElem hlen
  intro n h1 h2
  have := h n
  rw [List.getD_eq_getElem l1 d h1, List.getD_eq_getElem l2 d h2] at this
  exact this

theorem set_eq_self_of_getD {α : Type} (l : List α) (i : Nat) (v d : α)
    (hv : l.getD i d = v) (hi : i < l.length) : l.set i v = l := by
  apply list_ext_getD _ _ d (List.length_set _ _ _)
  intro p
  by_cases hp : i = p
  · subst hp; rw [getD_set_self _ _ _ _ hi, hv]
  · rw [getD_set_ne _ _ _ _ _ hp]

/-- One execution of the loop body never lowers the count, keeps the length of `values`
and `row_indices`, and leaves every slot from the new count on as it was. -/
theorem merge_body_frame [Mul eT] [Zero eT] [DecidableEq eT] (A B : SpMat eT) (n : Nat)
    (s : merge_state eT) :
    s.count ≤ (merge_body A B n s).count ∧
    ∀ p, (merge_body A B n s).count ≤ p →
      (merge_body A B n s).out.values.getD p 0 = s.out.values.getD p 0 ∧
      (merge_body A B n s).out.row_indices.getD p 0 = s.out.row_indices.getD p 0 := by
  unfold merge_body
  simp only
  split_ifs
  · refine ⟨Nat.le_succ _, ?_⟩
    intro p hp
    simp only at hp ⊢
    exact ⟨getD_set_ne _ _ _ _ _ (by omega), getD_set_ne _ _ _ _ _ (by omega)⟩
  · exact ⟨le_refl _, fun p _ => ⟨rfl, rfl⟩⟩
  · exact ⟨le_refl _, fun p _ => ⟨rfl, rfl⟩⟩
  · exact ⟨le_refl _, fun p _ => ⟨rfl, rfl⟩⟩

theorem merge_loop_frame [Mul eT] [Zero eT] [DecidableEq eT] (A B : SpMat eT) (n : Nat) :
    ∀ (fuel : Nat) (s t : merge_state eT), merge_loop A B n fuel s = some t →
      s.count ≤ t.count ∧
      ∀ p, t.count ≤ p →
        t.out.values.getD p 0 = s.out.values.getD p 0 ∧
        t.out.row_indices.getD p 0 = s.out.row_indices.getD p 0 := by
  intro fuel
  induction fuel with
  | zero =>
    intro s t hs
    simp only [merge_loop] at hs
    split at hs
    · cases hs
    · cases hs; exact ⟨le_refl _, fun p _ => ⟨rfl, rfl⟩⟩
  | succ k ih =>
    intro s t hs
    simp only [merge_loop] at hs
    split at hs
    · obtain ⟨h1, h2⟩ := ih _ t hs
      obtain ⟨h3, h4⟩ := merge_body_frame A B n s
      refine ⟨le_trans h3 h1, ?_⟩
      intro p hp
      obtain ⟨h5, h6⟩ := h2 p hp
      obtain ⟨h7, h8⟩ := h4 p (le_trans h1 hp)
      exact ⟨by rw [h5, h7], by rw [h6, h8]⟩
    · cases hs; exact ⟨le_refl _, fun p _ => ⟨rfl, rfl⟩⟩

/-- The state in which the loop ends on valid same-shaped inputs: it satisfies the
invariant with both inputs consumed, and every slot of `values` and `row_indices` from the
count on is as `reserve` left it. -/
theorem merge_loop_final [Mul eT] [Zero eT] [DecidableEq eT] {A B : SpMat eT} (hA : A.valid)
    (hB : B.valid) (hr : A.n_rows = B.n_rows) (hc : A.n_cols = B.n_cols) (out : SpMat eT)
    (m : Nat) (hm : schur_nnz A B ≤ m) :
    ∃ s, merge_loop A B A.n_rows (A.n_nonzero + B.n_nonzero)
        (merge_init A B (out.reserve A.n_rows A.n_cols m)) = some s ∧
      merge_inv A B m A.n_nonzero B.n_nonzero s ∧
      ∀ p, s.count ≤ p →
        s.out.values.getD p 0 = (out.reserve A.n_rows A.n_cols m).values.getD p 0 ∧
        s.out.row_indices.getD p 0 = (out.reserve A.n_rows A.n_cols m).row_indices.getD p 0 := by
  obtain ⟨s, hs, hinv⟩ := merge_loop_inv hA hB hr hc m (emitted_length_le hA hB m hm)
    (A.n_nonzero + B.n_nonzero) 0 0 _ (merge_init_inv hA hB out m) (by omega)
  exact ⟨s, hs, hinv, (merge_loop_frame A B A.n_rows _ _ s hs).2⟩

theorem apply_noalias_of_loop [Mul eT] [Zero eT] [DecidableEq eT]
    (est : SpMat eT → SpMat eT → Nat) (out A B : SpMat eT)
    (hr : A.n_rows = B.n_rows) (hc : A.n_cols = B.n_cols)
    (hnz : A.n_nonzero ≠ 0 ∧ B.n_nonzero ≠ 0) (s : merge_state eT)
    (hs : merge_loop A B A.n_rows (A.n_nonzero + B.n_nonzero)
      (merge_init A B (out.reserve A.n_rows A.n_cols (est A B))) = some s) :
    spglue_schur.apply_noalias est out A B = (Status.ok, rightsize (est A B) s.count s.fix_out) := by
  unfold spglue_schur.apply_noalias
  rw [← hr, ← hc, assert_same_size_ok]
  simp only
  rw [if_pos hnz, hs]
  rfl

/-! ## Rightsizing -/

theorem SpMat.eq_of_fields (R S : SpMat eT) (h1 : R.n_rows = S.n_rows)
    (h2 : R.n_cols = S.n_cols) (h3 : R.n_nonzero = S.n_nonzero) (h4 : R.values = S.values)
    (h5 : R.row_indices = S.row_indices) (h6 : R.col_ptrs = S.col_ptrs) : R = S := by
  cases R
  cases S
  simp only at h1 h2 h3 h4 h5 h6
  subst h1 h2 h3 h4 h5 h6
  rfl

/-- C13: rightsizing policy of `apply_noalias` on the merge path, for every realised count
and every reserved bound that is at least the count. When the count is at most half of the
bound, the storage that `apply_noalias` leaves is the one `mem_resize(count)` gives: slots
for exactly `count` entries and the trailing one. Otherwise it is the storage shrunk in
place: the arrays keep their reserved length, the count is recorded and the slot past the
last entry is zero. This covers the count equal to the bound, where line 131 skips both
branches and the storage already is as described. -/
theorem rightsizing_policy [Mul eT] [Zero eT] [DecidableEq eT]
    (est : SpMat eT → SpMat eT → Nat) (out A B : SpMat eT) (hA : A.valid) (hB : B.valid)
    (hr : A.n_rows = B.n_rows) (hc : A.n_cols = B.n_cols)
    (hest : schur_nnz A B ≤ est A B) (hnz : A.n_nonzero ≠ 0 ∧ B.n_nonzero ≠ 0) :
    ∃ s, merge_loop A B A.n_rows (A.n_nonzero + B.n_nonzero)
        (merge_init A B (out.reserve A.n_rows A.n_cols (est A B))) = some s ∧
      s.count = schur_nnz A B ∧
      spglue_schur.apply_noalias est out A B =
        (Status.ok, rightsize (est A B) s.count s.fix_out) ∧
      (s.count ≤ est A B / 2 →
        rightsize (est A B) s.count s.fix_out = s.fix_out.mem_resize s.count ∧
        (rightsize (est A B) s.count s.fix_out).values.length = s.count + 1 ∧
        (rightsize (est A B) s.count s.fix_out).row_indices.length = s.count + 1) ∧
      (¬ s.count ≤ est A B / 2 →
        rightsize (est A B) s.count s.fix_out = s.fix_out.quick_resize s.count ∧
        (rightsize (est A B) s.count s.fix_out).values.length = est A B + 1 ∧
        (rightsize (est A B) s.count s.fix_out).row_indices.length = est A B + 1) := by
  obtain ⟨s, hs, hinv, hframe⟩ := merge_loop_final hA hB hr hc out (est A B) hest
  have hcount : s.count = schur_nnz A B := by
    rw [hinv.count_eq, emitted_length_eq_schur_nnz hA hB]
  have hle : s.count ≤ est A B := by omega
  have hvl := hinv.values_length
  have hrl := hinv.row_indices_length
  have hlastv : s.out.values.getD (est A B) 0 = 0 := by
    rw [(hframe (est A B) hle).1]
    exact getD_map_range_append_last _ _ _ _
  have hlastr : s.out.row_indices.getD (est A B) 0 = 0 := by
    rw [(hframe (est A B) hle).2]
    exact getD_map_range_append_last _ _ _ _
  refine ⟨s, hs, hcount, apply_noalias_of_loop est out A B hr hc hnz s hs, ?_, ?_⟩
  · intro hhalf
    have hrs : rightsize (est A B) s.count s.fix_out = s.fix_out.mem_resize s.count := by
      unfold rightsize
      by_cases hlt : s.count < est A B
      · rw [if_pos hlt, if_pos hhalf]
      · rw [if_neg hlt]
        have hm0 : est A B = 0 := by omega
        have hc0 : s.count = 0 := by omega
        apply SpMat.eq_of_fields
        · rfl
        · rfl
        · show s.out.n_nonzero = s.count
          rw [hinv.n_nonzero_eq]; omega
        · show s.out.values = _
          apply list_ext_getD _ _ 0
          · simp [SpMat.mem_resize, hvl, hm0, hc0]
          · intro p
            simp only [SpMat.mem_resize, merge_state.fix_out, hc0, List.range_zero, List.map_nil,
              List.nil_append]
            by_cases hp : p = 0
            · subst hp
              rw [hm0] at hlastv
              rw [hlastv]; rfl
            · rw [List.getD_eq_default _ _ (by rw [hvl]; omega),
                List.getD_eq_default _ _ (by simp only [List.length_singleton]; omega)]
        · show s.out.row_indices = _
          apply list_ext_getD _ _ 0
          · simp [SpMat.mem_resize, hrl, hm0, hc0]
          · intro p
            simp only [SpMat.mem_resize, merge_state.fix_out, hc0, List.range_zero, List.map_nil,
              List.nil_append]
            by_cases hp : p = 0
            · subst hp
              rw [hm0] at hlastr
              rw [hlastr]; rfl
            · rw [List.getD_eq_default _ _ (by rw [hrl]; omega),
                List.getD_eq_default _ _ (by simp only [List.length_singleton]; omega)]
        · rfl
    rw [hrs]
    exact ⟨rfl, by simp [SpMat.mem_resize], by simp [SpMat.mem_resize]⟩
  · intro hhalf
    have hrs : rightsize (est A B) s.count s.fix_out = s.fix_out.quick_resize s.count := by
      unfold rightsize
      by_cases hlt : s.count < est A B
      · rw [if_pos hlt, if_neg hhalf]
        rfl
      · rw [if_neg hlt]
        have hcm : s.count = est A B := by omega
        apply SpMat.eq_of_fields
        · rfl
        · rfl
        · show s.out.n_nonzero = s.count
          rw [hinv.n_nonzero_eq]; omega
        · show s.out.values = s.out.values.set s.count 0
          rw [hcm]
          exact (set_eq_self_of_getD _ _ _ 0 hlastv (by omega)).symm
        · show s.out.row_indices = s.out.row_indices.set s.count 0
          rw [hcm]
          exact (set_eq_self_of_getD _ _ _ 0 hlastr (by omega)).symm
        · rfl
    rw [hrs]
    refine ⟨rfl, ?_, ?_⟩
    · show (s.out.values.set s.count 0).length = _
      rw [List.length_set, hvl]
    · show (s.out.row_indices.set s.count 0).length = _
      rw [List.length_set, hrl]

/-- C13 on the product of `exA` with itself (count `3`): with the bound `7` the storage is
reallocated to 3 entries, with the bounds `4` and `3` it keeps its reserved length. -/
theorem rightsizing_policy_witness :
    (spglue_schur.apply_noalias (fun _ _ => 7) SpMat.empty exA exA).2.values = [4, 9, 25, 0] ∧
    (spglue_schur.apply_noalias (fun _ _ => 4) SpMat.empty exA exA).2.values
      = [4, 9, 25, 0, 0] ∧
    (spglue_schur.apply_noalias (fun _ _ => 3) SpMat.empty exA exA).2.values = [4, 9, 25, 0] ∧
    ∃ s, merge_loop exA exA exA.n_rows (exA.n_nonzero + exA.n_nonzero)
        (merge_init exA exA ((SpMat.empty : SpMat Int).reserve exA.n_rows exA.n_cols 3))
        = some s ∧
      s.count = schur_nnz exA exA :=
  ⟨by decide, by decide, by decide,
    (rightsizing_policy (fun _ _ => 3) SpMat.empty exA exA (by decide) (by decide) rfl rfl
      (by decide) (by decide)).imp (fun _ h => ⟨h.1, h.2.1⟩)⟩

/-- C14: in the in-place shrink branch (`max_n_nonzero / 2 < count < max_n_nonzero`, storage
reserved for `max_n_nonzero` entries), rightsizing records `n_nonzero = count` and zeroes
`values[count]` and `row_indices[count]`; the first `count` entries of `values` and
`row_indices`, the whole `col_ptrs`, `n_rows`, `n_cols` and the length of the arrays are
as before. -/
theorem in_place_shrink_frame [Zero eT] (max_n_nonzero count : Nat) (out : SpMat eT)
    (hhalf : max_n_nonzero / 2 < count) (hlt : count < max_n_nonzero)
    (hv : out.values.length = max_n_nonzero + 1)
    (hri : out.row_indices.length = max_n_nonzero + 1) :
    rightsize max_n_nonzero count out = out.quick_resize count ∧
    (rightsize max_n_nonzero count out).n_nonzero = count ∧
    (rightsize max_n_nonzero count out).values.getD count 0 = 0 ∧
    (rightsize max_n_nonzero count out).row_indices.getD count 0 = 0 ∧
    (∀ p < count,
      (rightsize max_n_nonzero count out).values.getD p 0 = out.values.getD p 0 ∧
      (rightsize max_n_nonzero count out).row_indices.getD p 0 = out.row_indices.getD p 0) ∧
    (rightsize max_n_nonzero count out).col_ptrs = out.col_ptrs ∧
    (rightsize max_n_nonzero count out).n_rows = out.n_rows ∧
    (rightsize max_n_nonzero count out).n_cols = out.n_cols ∧
    (rightsize max_n_nonzero count out).values.length = out.values.length ∧
    (rightsize max_n_nonzero count out).row_indices.length = out.row_indices.length := by
  have hrs : rightsize max_n_nonzero count out = out.quick_resize count := by
    unfold rightsize
    rw [if_pos hlt, if_neg (by omega)]
    rfl
  rw [hrs]
  refine ⟨rfl, rfl, ?_, ?_, ?_, rfl, rfl, rfl, ?_, ?_⟩
  · exact getD_set_self _ _ _ _ (by omega)
  · exact getD_set_self _ _ _ _ (by omega)
  · intro p hp
    exact ⟨getD_set_ne _ _ _ _ _ (by omega), getD_set_ne _ _ _ _ _ (by omega)⟩
  · exact List.length_set _ _ _
  · exact List.length_set _ _ _

/-- C14 on the product of `exA` with itself with the bound `4`: the loop leaves count `3`,
and the shrink records it without touching the three entries. -/
theorem in_place_shrink_frame_witness :
    (4 / 2 < 3 ∧ 3 < 4 ∧
      (merge_after exA exA 3 6
        (merge_init exA exA ((SpMat.empty : SpMat Int).reserve 3 3 4))).count = 3 ∧
      (merge_after exA exA 3 6
        (merge_init exA exA ((SpMat.empty : SpMat Int).reserve 3 3 4))).fix_out.values
        = [4, 9, 25, 0, 0]) ∧
    rightsize 4 3 (merge_after exA exA 3 6
        (merge_init exA exA ((SpMat.empty : SpMat Int).reserve 3 3 4))).fix_out =
      (merge_after exA exA 3 6
        (merge_init exA exA ((SpMat.empty : SpMat Int).reserve 3 3 4))).fix_out.quick_resize 3 :=
  ⟨by decide,
    (in_place_shrink_frame 4 3 (merge_after exA exA 3 6
        (merge_init exA exA ((SpMat.empty : SpMat Int).reserve 3 3 4))).fix_out
      (by decide) (by decide) (by decide) (by decide)).1⟩

/-! ## Symmetry in the inputs, independence of the destination -/

theorem eq_of_sorted_of_mem_iff {α : Type} (f : α → Nat) (l1 l2 : List α)
    (h1 : l1.Pairwise (fun a b => f a < f b)) (h2 : l2.Pairwise (fun a b => f a < f b))
    (hmem : ∀ a, a ∈ l1 ↔ a ∈ l2) : l1 = l2 := by
  have hnd1 : l1.Nodup := h1.imp (fun h heq => by subst heq; omega)
  have hnd2 : l2.Nodup := h2.imp (fun h heq => by subst heq; omega)
  haveI : IsAntisymm α (fun a b => f a < f b) :=
    ⟨fun a b hab hba => absurd hab (by omega)⟩
  exact List.eq_of_perm_of_sorted ((List.perm_ext_iff_of_nodup hnd1 hnd2).mpr hmem) h1 h2

/-- With a commutative multiplication the two orders of the operands contribute the same
entries. -/
theorem emitted_comm [Mul eT] [Zero eT] [DecidableEq eT] {A B : SpMat eT} (hA : A.valid)
    (hB : B.valid) (hr : A.n_rows = B.n_rows) (hcomm : ∀ a b : eT, a * b = b * a) :
    emitted A B A.n_nonzero = emitted B A B.n_nonzero := by
  have h1 := (emitted_sorted hA hB A.n_nonzero (le_refl _)).ascending
  have h2 := (emitted_sorted hB hA B.n_nonzero (le_refl _)).ascending
  rw [← hr] at h2
  apply eq_of_sorted_of_mem_iff (fun e : entry eT => e.1 + e.2.1 * A.n_rows) _ _ h1 h2
  rintro ⟨r, c, v⟩
  rw [mem_emitted_iff hA hB, mem_emitted_iff hB hA]
  constructor
  · rintro ⟨i, j, hi, hri, hj, hrj, hv, hne⟩
    exact ⟨j, i, hj, hrj, hi, hri, by rw [hv, hcomm], hne⟩
  · rintro ⟨j, i, hj, hrj, hi, hri, hv, hne⟩
    exact ⟨i, j, hi, hri, hj, hrj, by rw [hv, hcomm], hne⟩

theorem apply_noalias_of_empty [Mul eT] [Zero eT] [DecidableEq eT]
    (est : SpMat eT → SpMat eT → Nat) (out A B : SpMat eT)
    (hr : A.n_rows = B.n_rows) (hc : A.n_cols = B.n_cols)
    (hnz : ¬ (A.n_nonzero ≠ 0 ∧ B.n_nonzero ≠ 0)) :
    spglue_schur.apply_noalias est out A B = (Status.ok, out.zeros A.n_rows A.n_cols) := by
  unfold spglue_schur.apply_noalias
  rw [← hr, ← hc, assert_same_size_ok]
  simp only
  rw [if_neg hnz]

/-- Two end states of the loop that hold the same entries over the same reserved storage
have the same destination. -/
theorem merge_inv.out_eq [Mul eT] [Zero eT] [DecidableEq eT] {A B A' B' : SpMat eT} {m : Nat}
    {s s' : merge_state eT} {V : List eT} {W : List Nat}
    (h : merge_inv A B m A.n_nonzero B.n_nonzero s)
    (h' : merge_inv A' B' m A'.n_nonzero B'.n_nonzero s')
    (hE : emitted A B A.n_nonzero = emitted A' B' A'.n_nonzero)
    (hr : A.n_rows = A'.n_rows) (hc : A.n_cols = A'.n_cols)
    (hf : ∀ p, s.count ≤ p →
      s.out.values.getD p 0 = V.getD p 0 ∧ s.out.row_indices.getD p 0 = W.getD p 0)
    (hf' : ∀ p, s'.count ≤ p →
      s'.out.values.getD p 0 = V.getD p 0 ∧ s'.out.row_indices.getD p 0 = W.getD p 0) :
    s.count = s'.count ∧ s.out = s'.out := by
  have hcount : s.count = s'.count := by rw [h.count_eq, h'.count_eq, hE]
  have hpt : ∀ p, s.out.values.getD p 0 = s'.out.values.getD p 0 ∧
      s.out.row_indices.getD p 0 = s'.out.row_indices.getD p 0 := by
    intro p
    by_cases hp : p < s.count
    · have hp1 : p < (emitted A B A.n_nonzero).length := by rw [← h.count_eq]; exact hp
      obtain ⟨e, he⟩ : ∃ e, (emitted A B A.n_nonzero)[p]? = some e :=
        ⟨_, List.getElem?_eq_getElem hp1⟩
      obtain ⟨e1, e2⟩ := h.entries p e he
      rw [hE] at he
      obtain ⟨e3, e4⟩ := h'.entries p e he
      exact ⟨by rw [e1, e3], by rw [e2, e4]⟩
    · obtain ⟨e1, e2⟩ := hf p (by omega)
      obtain ⟨e3, e4⟩ := hf' p (by omega)
      exact ⟨by rw [e1, e3], by rw [e2, e4]⟩
  refine ⟨hcount, ?_⟩
  apply SpMat.eq_of_fields
  · rw [h.n_rows_eq, h'.n_rows_eq, hr]
  · rw [h.n_cols_eq, h'.n_cols_eq, hc]
  · rw [h.n_nonzero_eq, h'.n_nonzero_eq]
  · exact list_ext_getD _ _ 0 (by rw [h.values_length, h'.values_length]) (fun p => (hpt p).1)
  · exact list_ext_getD _ _ 0 (by rw [h.row_indices_length, h'.row_indices_length])
      (fun p => (hpt p).2)
  · apply list_ext_getD _ _ 0 (by rw [h.col_ptrs_length, h'.col_ptrs_length, hc])
    intro k
    rw [h.tallies, h'.tallies, hE]

/-- C18: with a commutative multiplication of the element type (and an estimator that
gives both orders of the operands the same value, at least the number of nonzero
results), `apply_noalias(out, A, B)` and `apply_noalias(out, B, A)` on valid same-shaped
inputs end normally and leave the same matrix in `out`: the same shape, `n_nonzero`,
`values`, `row_indices` and `col_ptrs`. -/
theorem apply_noalias_comm [Mul eT] [Zero eT] [DecidableEq eT]
    (hcomm : ∀ a b : eT, a * b = b * a)
    (est : SpMat eT → SpMat eT → Nat) (out A B : SpMat eT) (hA : A.valid) (hB : B.valid)
    (hr : A.n_rows = B.n_rows) (hc : A.n_cols = B.n_cols)
    (hest : schur_nnz A B ≤ est A B) (hsym : est B A = est A B) :
    (spglue_schur.apply_noalias est out A B).1 = Status.ok ∧
    spglue_schur.apply_noalias est out A B = spglue_schur.apply_noalias est out B A := by
  by_cases hnz : A.n_nonzero ≠ 0 ∧ B.n_nonzero ≠ 0
  · have hE := emitted_comm hA hB hr hcomm
    have hest' : schur_nnz B A ≤ est A B := by
      rw [← emitted_length_eq_schur_nnz hB hA, ← hE, emitted_length_eq_schur_nnz hA hB]
      exact hest
    obtain ⟨s, hs, hinv, hf⟩ := merge_loop_final hA hB hr hc out (est A B) hest
    obtain ⟨s', hs', hinv', hf'⟩ := merge_loop_final hB hA hr.symm hc.symm out (est A B) hest'
    rw [← hr, ← hc] at hf'
    obtain ⟨hcount, hout⟩ := hinv.out_eq hinv' hE hr hc hf hf'
    have h1 := apply_noalias_of_loop est out A B hr hc hnz s hs
    have h2 := apply_noalias_of_loop est out B A hr.symm hc.symm ⟨hnz.2, hnz.1⟩ s'
      (by rw [hsym]; exact hs')
    rw [h1, h2, hsym]
    refine ⟨rfl, ?_⟩
    have hfix : s.fix_out = s'.fix_out := by
      unfold merge_state.fix_out
      rw [hout]
    rw [hcount, hfix]
  · rw [apply_noalias_of_empty est out A B hr hc hnz,
      apply_noalias_of_empty est out B A hr.symm hc.symm (by omega), hr, hc]
    exact ⟨rfl, rfl⟩

/-- C18 on the concrete scenario, with the modelled estimator and a destination that held
other data before. -/
theorem apply_noalias_comm_witness :
    (spglue_elem_helper.max_n_nonzero_schur exB exA =
        spglue_elem_helper.max_n_nonzero_schur exA exB ∧
      schur_nnz exA exB ≤ spglue_elem_helper.max_n_nonzero_schur exA exB) ∧
    spglue_schur.apply_noalias spglue_elem_helper.max_n_nonzero_schur exStale exA exB =
      spglue_schur.apply_noalias spglue_elem_helper.max_n_nonzero_schur exStale exB exA :=
  ⟨by decide,
    (apply_noalias_comm Int.mul_comm spglue_elem_helper.max_n_nonzero_schur exStale exA exB
      (by decide) (by decide) rfl rfl (by decide) (by decide)).2⟩

/-- C19: the result of `apply_noalias` on valid same-shaped inputs does not depend on what
the destination held before: for any two prior contents `out` and `out'` the call ends
normally with the same `n_rows`, `n_cols`, `n_nonzero` and `col_ptrs`, and the same first
`n_nonzero` entries of `values` and `row_indices`. -/
theorem apply_noalias_ignores_prior_out [Mul eT] [Zero eT] [DecidableEq eT]
    (est : SpMat eT → SpMat eT → Nat) (out out' A B : SpMat eT) (hA : A.valid) (hB : B.valid)
    (hr : A.n_rows = B.n_rows) (hc : A.n_cols = B.n_cols)
    (hest : schur_nnz A B ≤ est A B) :
    (spglue_schur.apply_noalias est out A B).1 = Status.ok ∧
    (spglue_schur.apply_noalias est out' A B).1 = Status.ok ∧
    (spglue_schur.apply_noalias est out A B).2.n_rows =
      (spglue_schur.apply_noalias est out' A B).2.n_rows ∧
    (spglue_schur.apply_noalias est out A B).2.n_cols =
      (spglue_schur.apply_noalias est out' A B).2.n_cols ∧
    (spglue_schur.apply_noalias est out A B).2.n_nonzero =
      (spglue_schur.apply_noalias est out' A B).2.n_nonzero ∧
    (spglue_schur.apply_noalias est out A B).2.col_ptrs =
      (spglue_schur.apply_noalias est out' A B).2.col_ptrs ∧
    ∀ p < (spglue_schur.apply_noalias est out A B).2.n_nonzero,
      (spglue_schur.apply_noalias est out A B).2.values.getD p 0 =
        (spglue_schur.apply_noalias est out' A B).2.values.getD p 0 ∧
      (spglue_schur.apply_noalias est out A B).2.row_indices.getD p 0 =
        (spglue_schur.apply_noalias est out' A B).2.row_indices.getD p 0 := by
  obtain ⟨R, hR, hh⟩ := apply_noalias_holds est out A B hA hB hr hc hest
  obtain ⟨R', hR', hh'⟩ := apply_noalias_holds est out' A B hA hB hr hc hest
  rw [hR, hR']
  refine ⟨rfl, rfl, by rw [hh.n_rows_eq, hh'.n_rows_eq], by rw [hh.n_cols_eq, hh'.n_cols_eq],
    by rw [hh.n_nonzero_eq, hh'.n_nonzero_eq], ?_, ?_⟩
  · apply list_ext_getD _ _ 0 (by rw [hh.col_ptrs_length, hh'.col_ptrs_length])
    intro k
    by_cases hk : k ≤ A.n_cols
    · rw [hh.col_ptrs_eq k hk, hh'.col_ptrs_eq k hk]
    · rw [List.getD_eq_default _ _ (by rw [hh.col_ptrs_length]; omega),
        List.getD_eq_default _ _ (by rw [hh'.col_ptrs_length]; omega)]
  · intro p hp
    simp only at hp ⊢
    rw [hh.n_nonzero_eq] at hp
    obtain ⟨e, he⟩ : ∃ e, (emitted A B A.n_nonzero)[p]? = some e :=
      ⟨_, List.getElem?_eq_getElem hp⟩
    obtain ⟨e1, e2⟩ := hh.entries p e he
    obtain ⟨e3, e4⟩ := hh'.entries p e he
    exact ⟨by rw [e1, e3], by rw [e2, e4]⟩

/-- C19 on the product of `exA` with itself with the bound `5`: a fresh destination and one
that held other data give the same three entries and the same `col_ptrs`, while the slots
behind the entries keep what the destination held. -/
theorem apply_noalias_ignores_prior_out_witness :
    ((spglue_schur.apply_noalias (fun _ _ => 5) SpMat.empty exA exA).2.values
        = [4, 9, 25, 0, 0, 0] ∧
      (spglue_schur.apply_noalias (fun _ _ => 5) exStale exA exA).2.values
        = [4, 9, 25, 0, 7, 0]) ∧
    (spglue_schur.apply_noalias (fun _ _ => 5) SpMat.empty exA exA).2.col_ptrs =
      (spglue_schur.apply_noalias (fun _ _ => 5) exStale exA exA).2.col_ptrs :=
  ⟨by decide,
    (apply_noalias_ignores_prior_out (fun _ _ => 5) SpMat.empty exStale exA exA
      (by decide) (by decide) rfl rfl (by decide)).2.2.2.2.2.1⟩

theorem common_positions_comm (A B : SpMat eT) (hr : A.n_rows = B.n_rows)
    (hc : A.n_cols = B.n_cols) : common_positions B A = common_positions A B := by
  unfold common_positions SpMat.positions
  rw [hr, hc]
  congr 2
  funext rc
  exact Bool.and_comm _ _

/-- The modelled estimator gives both orders of valid same-shaped operands the same value. -/
theorem max_n_nonzero_schur_comm {A B : SpMat eT} (hA : A.valid) (hB : B.valid)
    (hr : A.n_rows = B.n_rows) (hc : A.n_cols = B.n_cols) :
    spglue_elem_helper.max_n_nonzero_schur B A = spglue_elem_helper.max_n_nonzero_schur A B := by
  rw [max_n_nonzero_schur_eq_common hA hB hr hc,
    max_n_nonzero_schur_eq_common hB hA hr.symm hc.symm, common_positions_comm A B hr hc]

/-! ## Column offsets of the result -/

theorem mem_schur_col_rows [Mul eT] [Zero eT] [DecidableEq eT] {A B : SpMat eT}
    (hA : A.valid) (hB : B.valid) (r c : Nat) :
    r ∈ schur_col_rows A B c ↔ ∃ v, (r, c, v) ∈ emitted A B A.n_nonzero := by
  unfold schur_col_rows
  rw [List.mem_filter, List.mem_range]
  simp only [Bool.and_eq_true, decide_eq_true_eq]
  constructor
  · rintro ⟨-, ⟨hsA, hsB⟩, hne⟩
    obtain ⟨i, hi, hri⟩ := (hA.stored_iff _ _).mp hsA
    obtain ⟨j, hj, hrj⟩ := (hB.stored_iff _ _).mp hsB
    rw [← hri, hA.get_value_of_in_col hi, hri, ← hrj, hB.get_value_of_in_col hj] at hne
    exact ⟨_, (mem_emitted_iff hA hB r c _).mpr ⟨i, j, hi, hri, hj, hrj, rfl, hne⟩⟩
  · rintro ⟨v, hv⟩
    obtain ⟨i, j, hi, hri, hj, hrj, hvv, hne⟩ := (mem_emitted_iff hA hB r c v).mp hv
    refine ⟨by rw [← hri]; exact hA.row_lt i (hA.in_col_lt hi),
      ⟨(hA.stored_iff _ _).mpr ⟨i, hi, hri⟩, (hB.stored_iff _ _).mpr ⟨j, hj, hrj⟩⟩, ?_⟩
    rw [← hri, hA.get_value_of_in_col hi, hri, ← hrj, hB.get_value_of_in_col hj, ← hvv]
    exact hne

/-- In a matrix that holds the contributed entries, the row indices stored in the range of
column `c` are the rows of column `c` with a nonzero result, in ascending order, and the
value stored with each is the product of the two input values. -/
theorem holds_col_rows [Mul eT] [Zero eT] [DecidableEq eT] {A B R : SpMat eT} (hA : A.valid)
    (hB : B.valid) (h : holds_entries R A.n_rows A.n_cols (emitted A B A.n_nonzero))
    (c : Nat) (hc : c < A.n_cols) :
    (List.range' (R.col_ptrs.getD c 0) (R.col_ptrs.getD (c + 1) 0 - R.col_ptrs.getD c 0)).map
        (fun p => R.row_indices.getD p 0) = schur_col_rows A B c ∧
    ∀ p, R.col_ptrs.getD c 0 ≤ p → p < R.col_ptrs.getD (c + 1) 0 →
      R.values.getD p 0 =
        A.get_value (R.row_indices.getD p 0) c * B.get_value (R.row_indices.getD p 0) c := by
  have hs := emitted_sorted hA hB A.n_nonzero (le_refl _)
  have hv := h.valid hs
  have hcR : c < R.n_cols := by rw [h.n_cols_eq]; exact hc
  constructor
  · apply eq_of_sorted_of_mem_iff (fun r : Nat => r)
    · rw [List.pairwise_map]
      refine List.Pairwise.imp_of_mem ?_ (List.pairwise_lt_range' _ _)
      intro a b ha hb hab
      rw [List.mem_range'_1] at ha hb
      exact hv.rows_ascending (c := c) ⟨hcR, ha.1, by omega⟩ b ⟨hcR, hb.1, by omega⟩ hab
    · unfold schur_col_rows
      exact List.Pairwise.filter _ (List.pairwise_lt_range _)
    · intro r
      rw [mem_schur_col_rows hA hB, List.mem_map]
      constructor
      · rintro ⟨p, hp, hrow⟩
        rw [List.mem_range'_1] at hp
        have hin : R.in_col c p := ⟨hcR, hp.1, by omega⟩
        obtain ⟨v, hv'⟩ := (h.find_pos_iff_entry hs r c p).mp
          ((hv.find_pos_eq_some r c p).mpr ⟨hin, hrow⟩)
        exact ⟨v, List.mem_iff_getElem?.mpr ⟨p, hv'⟩⟩
      · rintro ⟨v, hmem⟩
        obtain ⟨p, hp⟩ := List.mem_iff_getElem?.mp hmem
        have hf := (h.find_pos_iff_entry hs r c p).mpr ⟨v, hp⟩
        obtain ⟨hin, hrow⟩ := (hv.find_pos_eq_some r c p).mp hf
        refine ⟨p, ?_, hrow⟩
        rw [List.mem_range'_1]
        have := hin.2.1; have := hin.2.2
        omega
  · intro p hlo hhi
    have hin : R.in_col c p := ⟨hcR, hlo, hhi⟩
    obtain ⟨e, he, hcol⟩ := (h.in_col_iff hs c p).mp hin
    obtain ⟨hval, hrow⟩ := h.entries p e he
    have hmem : (e.1, c, e.2.2) ∈ emitted A B A.n_nonzero := by
      rw [← hcol]
      exact List.mem_iff_getElem?.mpr ⟨p, he⟩
    obtain ⟨i, j, hi, hri, hj, hrj, hvv, -⟩ := (mem_emitted_iff hA hB _ _ _).mp hmem
    rw [hval, hrow, hvv, ← hri, hA.get_value_of_in_col hi, hri, ← hrj,
      hB.get_value_of_in_col hj]

/-- C12: after `apply_noalias` on valid same-shaped inputs, `col_ptrs` holds cumulative
column-start offsets: `col_ptrs[0] = 0`, and for every column `c` the difference
`col_ptrs[c + 1] - col_ptrs[c]` is the number of result entries of column `c`; the row
indices stored at the offsets `col_ptrs[c] .. col_ptrs[c + 1] - 1` are exactly the rows of
column `c` with a nonzero result, in ascending order, and the value stored with each is
the product of the two input values at that position. -/
theorem apply_noalias_col_offsets [Mul eT] [Zero eT] [DecidableEq eT]
    (est : SpMat eT → SpMat eT → Nat) (out A B : SpMat eT) (hA : A.valid) (hB : B.valid)
    (hr : A.n_rows = B.n_rows) (hc : A.n_cols = B.n_cols)
    (hest : schur_nnz A B ≤ est A B) :
    (spglue_schur.apply_noalias est out A B).1 = Status.ok ∧
    (spglue_schur.apply_noalias est out A B).2.col_ptrs.getD 0 0 = 0 ∧
    ∀ c < A.n_cols,
      (spglue_schur.apply_noalias est out A B).2.col_ptrs.getD c 0 ≤
        (spglue_schur.apply_noalias est out A B).2.col_ptrs.getD (c + 1) 0 ∧
      (spglue_schur.apply_noalias est out A B).2.col_ptrs.getD (c + 1) 0 -
          (spglue_schur.apply_noalias est out A B).2.col_ptrs.getD c 0 =
        (schur_col_rows A B c).length ∧
      (List.range' ((spglue_schur.apply_noalias est out A B).2.col_ptrs.getD c 0)
          ((spglue_schur.apply_noalias est out A B).2.col_ptrs.getD (c + 1) 0 -
            (spglue_schur.apply_noalias est out A B).2.col_ptrs.getD c 0)).map
          (fun p => (spglue_schur.apply_noalias est out A B).2.row_indices.getD p 0) =
        schur_col_rows A B c ∧
      ∀ p, (spglue_schur.apply_noalias est out A B).2.col_ptrs.getD c 0 ≤ p →
        p < (spglue_schur.apply_noalias est out A B).2.col_ptrs.getD (c + 1) 0 →
        (spglue_schur.apply_noalias est out A B).2.values.getD p 0 =
          A.get_value ((spglue_schur.apply_noalias est out A B).2.row_indices.getD p 0) c *
            B.get_value ((spglue_schur.apply_noalias est out A B).2.row_indices.getD p 0) c := by
  obtain ⟨R, hR, hh⟩ := apply_noalias_holds est out A B hA hB hr hc hest
  rw [hR]
  have hv := hh.valid (emitted_sorted hA hB _ (le_refl _))
  refine ⟨rfl, hv.2.1, ?_⟩
  intro c hcc
  obtain ⟨hrows, hvals⟩ := holds_col_rows hA hB hh c hcc
  refine ⟨hv.2.2.1 c (by rw [hh.n_cols_eq]; exact hcc), ?_, hrows, hvals⟩
  have := congrArg List.length hrows
  rw [List.length_map, List.length_range'] at this
  exact this

/-- C12 on the product of `exA` with itself: column 0 holds the rows 0 and 1 at offsets
0 and 1, column 1 is empty, column 2 holds row 2 at offset 2. -/
theorem apply_noalias_col_offsets_witness :
    ((spglue_schur.apply_noalias (fun _ _ => 3) SpMat.empty exA exA).2.col_ptrs = [0, 2, 2, 3] ∧
      schur_col_rows exA exA 0 = [0, 1] ∧ schur_col_rows exA exA 1 = [] ∧
      schur_col_rows exA exA 2 = [2]) ∧
    (spglue_schur.apply_noalias (fun _ _ => 3) SpMat.empty exA exA).2.col_ptrs.getD 0 0 = 0 :=
  ⟨by decide,
    (apply_noalias_col_offsets (fun _ _ => 3) SpMat.empty exA exA
      (by decide) (by decide) rfl rfl (by decide)).2.1⟩

end arma
